import Mathlib

/-!
# Verification of the stub/driver generation pipeline

A shallow embedding, in Lean 4, of the diagram-ingestion and call-graph
derivation pipeline of the repository (the CSV requirement-matrix parser,
the fuzzy name matcher, the message classifier, the recursive call-graph
builder and the stub/driver target resolver), together with proofs and
refutations of the behavioural claims made about it.

Conventions used throughout the embedding:

* JavaScript strings are Lean `String`s; the inputs of interest are ASCII,
  and `Char.toLower`/`Char.toUpper` agree with JavaScript
  `toLowerCase`/`toUpperCase` on ASCII.
* JavaScript `Map`/`Set` (insertion-ordered) are embedded as Lean lists:
  a `Set` is a list with insert-if-absent, a `Map` an association list.
* Code that can throw (`TypeError`) is embedded in `Except Unit`; the
  enclosing `try`/`catch` of the source becomes `Except.toOption`.
-/

set_option autoImplicit false

namespace StubDriver

/-! ## Character and string primitives (ASCII model of the JS operations) -/

/-- ASCII lower-casing of a character, as JS `toLowerCase` acts on ASCII. -/
def lowerC (c : Char) : Char := c.toLower

/-- ASCII upper-casing of a character, as JS `toUpperCase` acts on ASCII. -/
def upperC (c : Char) : Char := c.toUpper

/-- Lower-case every character of a character list. -/
def lowerL (l : List Char) : List Char := l.map lowerC

/-- JS `String.prototype.toLowerCase` on an ASCII string. -/
def strLower (s : String) : String := ⟨lowerL s.data⟩

/-- The characters stripped by JS `String.prototype.trim` (restricted to
ASCII, which covers all inputs of interest). -/
def jsSpaceT (c : Char) : Bool :=
  c == ' ' || c == '\t' || c == '\n' || c == '\r' || c == '\x0b' || c == '\x0c'

/-- JS `trim` on character lists, structurally. -/
def trimL (l : List Char) : List Char :=
  ((l.dropWhile jsSpaceT).reverse.dropWhile jsSpaceT).reverse

/-- JS `String.prototype.trim` (ASCII whitespace). -/
def jsTrim (s : String) : String := ⟨trimL s.data⟩

/-- JS `String.prototype.split` with a one-character separator string. -/
def splitOnCharL (sep : Char) : List Char → List (List Char)
  | [] => [[]]
  | c :: rest =>
    if c == sep then [] :: splitOnCharL sep rest
    else
      match splitOnCharL sep rest with
      | [] => [[c]]
      | h :: t => (c :: h) :: t

/-- The characters treated as whitespace by the JS regex class `\s`
(restricted to ASCII, which covers all inputs of interest). -/
def jsSpace (c : Char) : Bool :=
  c == ' ' || c == '\t' || c == '\n' || c == '\r' || c == '\x0b' || c == '\x0c'

/-- The JS regex word-character class `\w`, i.e. `[A-Za-z0-9_]`. -/
def isWordC (c : Char) : Bool :=
  (('a' ≤ c && c ≤ 'z') || ('A' ≤ c && c ≤ 'Z') || ('0' ≤ c && c ≤ '9') || c == '_')

/-- ASCII letter test (the JS class `[a-zA-Z]`). -/
def isAlphaC (c : Char) : Bool :=
  ('a' ≤ c && c ≤ 'z') || ('A' ≤ c && c ≤ 'Z')

/-- ASCII lowercase-letter test (the JS class `[a-z]` without the `i` flag). -/
def isLowerC (c : Char) : Bool := 'a' ≤ c && c ≤ 'z'

/-- ASCII uppercase-letter test (the JS class `[A-Z]` without the `i` flag). -/
def isUpperC (c : Char) : Bool := 'A' ≤ c && c ≤ 'Z'

/-- ASCII digit test (the JS class `\d`). -/
def isDigitC (c : Char) : Bool := '0' ≤ c && c ≤ '9'

/-- ASCII alphanumeric in lowercase form, the class `[a-z0-9]` used by the
column normalizer. -/
def isLowerAlnumC (c : Char) : Bool := isLowerC c || isDigitC c

/-- Prefix test on character lists (JS `String.prototype.startsWith`). -/
def isPrefixL : List Char → List Char → Bool
  | [], _ => true
  | _ :: _, [] => false
  | a :: as, b :: bs => a == b && isPrefixL as bs

/-- Substring containment on character lists (JS `String.prototype.includes`). -/
def containsL (s pat : List Char) : Bool :=
  isPrefixL pat s ||
    match s with
    | [] => false
    | _ :: t => containsL t pat

/-- JS `a.includes(b)` on strings. -/
def containsStr (s pat : String) : Bool := containsL s.data pat.data

/-- JS `a.startsWith(b)` on strings. -/
def startsWithStr (s pat : String) : Bool := isPrefixL pat.data s.data

/-- JS `a.endsWith(b)` on strings. -/
def endsWithStr (s pat : String) : Bool := isPrefixL pat.data.reverse s.data.reverse

theorem list_contains_iff {l : List String} {a : String} :
    l.contains a = true ↔ a ∈ l := by
  simp [List.contains]

theorem list_contains_false_iff {l : List String} {a : String} :
    l.contains a = false ↔ a ∉ l := by
  rw [← Bool.not_eq_true, not_iff_not]
  exact list_contains_iff

/-- The state of building a JS `Set` from a list: `seen` holds the values
already inserted. Keeps the first occurrence of every value, in order. -/
def dedupSeen (seen : List String) : List String → List String
  | [] => []
  | x :: xs => if seen.contains x then dedupSeen seen xs else x :: dedupSeen (x :: seen) xs

/-- De-duplication keeping the first occurrence of every element, the
semantics of iterating a JS `Set` built from a list
(`[...new Set(list)]`). -/
def dedupKF (l : List String) : List String := dedupSeen [] l

theorem dedupSeen_nil (seen : List String) : dedupSeen seen [] = [] := rfl

theorem dedupSeen_cons (seen : List String) (x : String) (xs : List String) :
    dedupSeen seen (x :: xs) =
      if seen.contains x then dedupSeen seen xs else x :: dedupSeen (x :: seen) xs := rfl

theorem dedupSeen_cons_mem {seen : List String} {x : String} (xs : List String)
    (h : x ∈ seen) : dedupSeen seen (x :: xs) = dedupSeen seen xs := by
  rw [dedupSeen_cons, if_pos (list_contains_iff.2 h)]

theorem dedupSeen_cons_not_mem {seen : List String} {x : String} (xs : List String)
    (h : x ∉ seen) : dedupSeen seen (x :: xs) = x :: dedupSeen (x :: seen) xs := by
  rw [dedupSeen_cons, if_neg (fun hc => h (list_contains_iff.1 hc))]

theorem dedupSeen_congr :
    ∀ (l : List String) {s1 s2 : List String}, (∀ a, a ∈ s1 ↔ a ∈ s2) →
      dedupSeen s1 l = dedupSeen s2 l := by
  intro l
  induction l with
  | nil => intro s1 s2 _; rfl
  | cons x xs ih =>
    intro s1 s2 h
    by_cases hx : x ∈ s1
    · rw [dedupSeen_cons_mem xs hx, dedupSeen_cons_mem xs ((h x).1 hx)]
      exact ih h
    · rw [dedupSeen_cons_not_mem xs hx,
        dedupSeen_cons_not_mem xs (fun hm => hx ((h x).2 hm))]
      refine congrArg _ (ih fun a => ?_)
      simp only [List.mem_cons]
      exact or_congr Iff.rfl (h a)

theorem mem_dedupSeen (a : String) :
    ∀ (l seen : List String), a ∈ dedupSeen seen l ↔ a ∈ l ∧ a ∉ seen := by
  intro l
  induction l with
  | nil => intro seen; simp [dedupSeen_nil]
  | cons x xs ih =>
    intro seen
    by_cases hx : x ∈ seen
    · rw [dedupSeen_cons_mem xs hx, ih seen]
      constructor
      · rintro ⟨h1, h2⟩; exact ⟨List.mem_cons_of_mem _ h1, h2⟩
      · rintro ⟨h1, h2⟩
        rcases List.mem_cons.1 h1 with rfl | h1'
        · exact absurd hx h2
        · exact ⟨h1', h2⟩
    · rw [dedupSeen_cons_not_mem xs hx]
      constructor
      · intro hm
        rcases List.mem_cons.1 hm with rfl | hm'
        · exact ⟨List.mem_cons_self _ _, hx⟩
        · obtain ⟨h1, h2⟩ := (ih (x :: seen)).1 hm'
          exact ⟨List.mem_cons_of_mem _ h1, fun hs => h2 (List.mem_cons_of_mem _ hs)⟩
      · rintro ⟨h1, h2⟩
        rcases List.mem_cons.1 h1 with rfl | h1'
        · exact List.mem_cons_self _ _
        · by_cases hax : a = x
          · subst hax; exact List.mem_cons_self _ _
          · refine List.mem_cons_of_mem _ ((ih (x :: seen)).2 ⟨h1', ?_⟩)
            intro hs
            rcases List.mem_cons.1 hs with h | h
            · exact hax h
            · exact h2 h

/-- Membership is preserved by `dedupKF`. -/
theorem mem_dedupKF (a : String) (l : List String) : a ∈ dedupKF l ↔ a ∈ l := by
  unfold dedupKF
  rw [mem_dedupSeen]
  simp

theorem nodup_dedupSeen : ∀ (l seen : List String), (dedupSeen seen l).Nodup := by
  intro l
  induction l with
  | nil => intro seen; simp [dedupSeen_nil]
  | cons x xs ih =>
    intro seen
    by_cases hx : x ∈ seen
    · rw [dedupSeen_cons_mem xs hx]
      exact ih seen
    · rw [dedupSeen_cons_not_mem xs hx]
      refine List.nodup_cons.2 ⟨?_, ih (x :: seen)⟩
      intro hmem
      exact ((mem_dedupSeen x xs (x :: seen)).1 hmem).2 (List.mem_cons_self _ _)

/-- The output of `dedupKF` has no duplicates. -/
theorem nodup_dedupKF (l : List String) : (dedupKF l).Nodup := nodup_dedupSeen l []

theorem dedupSeen_dedupSeen :
    ∀ (ys seen seen' : List String),
      dedupSeen seen (dedupSeen seen' ys) = dedupSeen (seen ++ seen') ys := by
  intro ys
  induction ys with
  | nil => intro seen seen'; rfl
  | cons y ys' ih =>
    intro seen seen'
    by_cases h1 : y ∈ seen'
    · rw [dedupSeen_cons_mem ys' h1,
        dedupSeen_cons_mem ys' (List.mem_append.2 (Or.inr h1))]
      exact ih seen seen'
    · rw [dedupSeen_cons_not_mem ys' h1]
      by_cases h2 : y ∈ seen
      · rw [dedupSeen_cons_mem _ h2,
          dedupSeen_cons_mem ys' (List.mem_append.2 (Or.inl h2))]
        rw [ih seen (y :: seen')]
        refine dedupSeen_congr ys' fun a => ?_
        constructor
        · intro hm
          rcases List.mem_append.1 hm with h | h
          · exact List.mem_append.2 (Or.inl h)
          · rcases List.mem_cons.1 h with rfl | h
            · exact List.mem_append.2 (Or.inl h2)
            · exact List.mem_append.2 (Or.inr h)
        · intro hm
          rcases List.mem_append.1 hm with h | h
          · exact List.mem_append.2 (Or.inl h)
          · exact List.mem_append.2 (Or.inr (List.mem_cons_of_mem _ h))
      · have hny : y ∉ seen ++ seen' := fun hm => by
          rcases List.mem_append.1 hm with h | h
          · exact h2 h
          · exact h1 h
        rw [dedupSeen_cons_not_mem _ h2, dedupSeen_cons_not_mem ys' hny]
        rw [ih (y :: seen) (y :: seen')]
        refine congrArg _ (dedupSeen_congr ys' fun a => ?_)
        constructor
        · intro hm
          rcases List.mem_append.1 hm with h | h
          · rcases List.mem_cons.1 h with rfl | h
            · exact List.mem_cons_self _ _
            · exact List.mem_cons_of_mem _ (List.mem_append.2 (Or.inl h))
          · rcases List.mem_cons.1 h with rfl | h
            · exact List.mem_cons_self _ _
            · exact List.mem_cons_of_mem _ (List.mem_append.2 (Or.inr h))
        · intro hm
          rcases List.mem_cons.1 hm with rfl | h
          · exact List.mem_cons_self _ _
          · rcases List.mem_append.1 h with h | h
            · exact List.mem_append.2 (Or.inl (List.mem_cons_of_mem _ h))
            · exact List.mem_append.2 (Or.inr (List.mem_cons_of_mem _ h))

theorem dedupSeen_append_dedup :
    ∀ (xs : List String) (seen ys : List String),
      dedupSeen seen (xs ++ dedupSeen [] ys) = dedupSeen seen (xs ++ ys) := by
  intro xs
  induction xs with
  | nil =>
    intro seen ys
    simp only [List.nil_append]
    rw [dedupSeen_dedupSeen ys seen [], List.append_nil]
  | cons x xs' ih =>
    intro seen ys
    simp only [List.cons_append]
    by_cases hx : x ∈ seen
    · rw [dedupSeen_cons_mem _ hx, dedupSeen_cons_mem _ hx]
      exact ih seen ys
    · rw [dedupSeen_cons_not_mem _ hx, dedupSeen_cons_not_mem _ hx]
      rw [ih (x :: seen) ys]

/-- A `dedupKF` of the right summand of an append is absorbed. -/
theorem dedupKF_append_dedupKF (xs ys : List String) :
    dedupKF (xs ++ dedupKF ys) = dedupKF (xs ++ ys) :=
  dedupSeen_append_dedup xs [] ys

theorem dedupSeen_dedup_append :
    ∀ (xs : List String) (seen ys : List String),
      dedupSeen seen (dedupSeen seen xs ++ ys) = dedupSeen seen (xs ++ ys) := by
  intro xs
  induction xs with
  | nil => intro seen ys; rfl
  | cons x xs' ih =>
    intro seen ys
    by_cases hx : x ∈ seen
    · rw [dedupSeen_cons_mem _ hx, List.cons_append, dedupSeen_cons_mem _ hx]
      exact ih seen ys
    · rw [dedupSeen_cons_not_mem _ hx, List.cons_append, List.cons_append,
        dedupSeen_cons_not_mem _ hx, dedupSeen_cons_not_mem _ hx]
      rw [ih (x :: seen) ys]

/-- A `dedupKF` of the left summand of an append is absorbed. -/
theorem dedupKF_dedupKF_append (xs ys : List String) :
    dedupKF (dedupKF xs ++ ys) = dedupKF (xs ++ ys) :=
  dedupSeen_dedup_append xs [] ys

theorem dedupSeen_append_singleton_mem {x : String} :
    ∀ (xs seen : List String), x ∈ xs ∨ x ∈ seen →
      dedupSeen seen (xs ++ [x]) = dedupSeen seen xs := by
  intro xs
  induction xs with
  | nil =>
    intro seen h
    rcases h with h | h
    · cases h
    · rw [List.nil_append, dedupSeen_cons_mem _ h]
  | cons y ys ih =>
    intro seen h
    simp only [List.cons_append]
    by_cases hy : y ∈ seen
    · rw [dedupSeen_cons_mem _ hy, dedupSeen_cons_mem _ hy]
      refine ih seen ?_
      rcases h with h | h
      · rcases List.mem_cons.1 h with rfl | h
        · exact Or.inr hy
        · exact Or.inl h
      · exact Or.inr h
    · rw [dedupSeen_cons_not_mem _ hy, dedupSeen_cons_not_mem _ hy]
      refine congrArg _ (ih (y :: seen) ?_)
      rcases h with h | h
      · rcases List.mem_cons.1 h with rfl | h
        · exact Or.inr (List.mem_cons_self _ _)
        · exact Or.inl h
      · exact Or.inr (List.mem_cons_of_mem _ h)

/-- Appending an already-present element does not change `dedupKF`. -/
theorem dedupKF_append_singleton_mem {x : String} {xs : List String} (h : x ∈ xs) :
    dedupKF (xs ++ [x]) = dedupKF xs :=
  dedupSeen_append_singleton_mem xs [] (Or.inl h)

theorem dedupSeen_append_singleton_not_mem {x : String} :
    ∀ (xs seen : List String), x ∉ xs → x ∉ seen →
      dedupSeen seen (xs ++ [x]) = dedupSeen seen xs ++ [x] := by
  intro xs
  induction xs with
  | nil =>
    intro seen _ h2
    rw [List.nil_append, dedupSeen_cons_not_mem _ h2]
    rfl
  | cons y ys ih =>
    intro seen h1 h2
    have hxy : x ≠ y := fun hEq => h1 (hEq ▸ List.mem_cons_self y ys)
    have h1' : x ∉ ys := fun hm => h1 (List.mem_cons_of_mem _ hm)
    simp only [List.cons_append]
    by_cases hy : y ∈ seen
    · rw [dedupSeen_cons_mem _ hy, dedupSeen_cons_mem _ hy]
      exact ih seen h1' h2
    · rw [dedupSeen_cons_not_mem _ hy, dedupSeen_cons_not_mem _ hy]
      rw [ih (y :: seen) h1' (fun hm => by
        rcases List.mem_cons.1 hm with h | h
        · exact hxy h
        · exact h2 h)]
      rfl

/-- Appending a fresh element pushes it to the end of `dedupKF`. -/
theorem dedupKF_append_singleton_not_mem {x : String} {xs : List String} (h : x ∉ xs) :
    dedupKF (xs ++ [x]) = dedupKF xs ++ [x] :=
  dedupSeen_append_singleton_not_mem xs [] h (List.not_mem_nil x)

/-! ## Data model

The normalized sequence-diagram model produced by the Diagram XML Parser
(`processSequenceDiagramFile`) and consumed by the Call Graph Builder. -/

/-- A participant of a sequence diagram (`ObjectNode` in the source): the
`type` is a class name, the sentinel `"ACTOR"`, or the sentinel `"REF"`. -/
structure ObjectNode where
  id : String
  name : String
  type : String
deriving DecidableEq, Repr

/-- A message between two participants (`Message` in the source); `fromId`
and `toId` stand for the source fields `from` and `to` (participant ids). -/
structure Message where
  id : String
  fromId : String
  toId : String
  name : String
  type : String
deriving DecidableEq, Repr

/-- A REF-box entry (`Reference` in the source). -/
structure Reference where
  id : String
  name : String
  diagramName : Option String
deriving DecidableEq, Repr

/-- A parsed sequence diagram (`SequenceDiagram` in the source). -/
structure SequenceDiagram where
  id : String
  name : String
  objects : List ObjectNode
  messages : List Message
  references : List Reference
deriving DecidableEq, Repr

/-- A method parameter (`ParameterInfo` in the source). -/
structure ParameterInfo where
  name : String
  type : String
deriving DecidableEq, Repr

/-- A class-diagram method (`MethodInfo` in the source). -/
structure MethodInfo where
  id : String
  name : String
  returnType : String
  visibility : String
  parameters : List ParameterInfo
deriving DecidableEq, Repr

/-- A catalog class (`ClassInfo` in the source). -/
structure ClassInfo where
  id : String
  name : String
  packageName : String
  methods : List MethodInfo
  relatedFunctions : List String
deriving DecidableEq, Repr

/-- A system function parsed from the RTM (`SystemFunction` in the source). -/
structure SystemFunction where
  id : String
  name : String
  sequenceDiagramNames : List String
deriving DecidableEq, Repr

/-! ## Message Classifier (`detectReturnMessage`, part_006 lines 386–545)

The classifier operates on the lower-cased message name and type. Every
regex of the source is embedded as an executable predicate on the
character list; comments quote the corresponding regex. -/

/-- Scan for `messageName` containing the pattern `\.(kw1|kw2|...)\s*\(`:
a dot followed by one of the keywords, optional whitespace and an opening
parenthesis (the shape of all method-name patterns of the classifier). -/
def dotKwParen (kws : List (List Char)) : List Char → Bool
  | [] => false
  | c :: rest =>
    (c == '.' && kws.any fun kw =>
      isPrefixL kw rest &&
        match (rest.drop kw.length).dropWhile jsSpace with
        | '(' :: _ => true
        | _ => false) ||
    dotKwParen kws rest

/-- Word-boundary search: `\bkw\b` for a keyword consisting of word
characters, as in `/\breturn\b/`. The first argument is the character
preceding the current suffix (`none` at the very start). -/
def wbContains (kw : List Char) : Option Char → List Char → Bool
  | prev, s =>
    (isPrefixL kw s &&
      (match prev with | none => true | some c => !isWordC c) &&
      (match s.drop kw.length with | [] => true | c :: _ => !isWordC c)) ||
    match s with
    | [] => false
    | c :: t => wbContains kw (some c) t

/-- `/^[A-Z][a-zA-Z]*\s+(object|instance|data)$/i`: a word of letters, some
whitespace, then one of the three nouns. -/
def letterSpaceNounPat (s : List Char) : Bool :=
  let w := s.takeWhile isAlphaC
  let rest := s.drop w.length
  let sp := rest.takeWhile jsSpace
  let tail := rest.drop sp.length
  !w.isEmpty && !sp.isEmpty &&
    (tail == "object".data || tail == "instance".data || tail == "data".data)

/-- `/^[A-Z][a-zA-Z]*\[\]$/i`: letters followed by the two characters of an
empty array-bracket suffix. -/
def arraySuffixPat (s : List Char) : Bool :=
  let w := s.takeWhile isAlphaC
  !w.isEmpty && s.drop w.length == ['[', ']']

/-- `/^Pre<[^>]+>$/i` for a fixed lower-case prefix such as `list<`: the
prefix, a non-empty run without a closing angle, and a final closing angle. -/
def genericAnglePat (pre : List Char) (s : List Char) : Bool :=
  isPrefixL pre s &&
    let rest := s.drop pre.length
    rest.length ≥ 2 && rest.getLast? == some '>' && rest.dropLast.all (· != '>')

/-- `/^\w+\s*[+\-*\/=]\s*\w+/`: word characters, an arithmetic or
assignment operator, and more word characters. -/
def assignExprPat (s : List Char) : Bool :=
  let w := s.takeWhile isWordC
  let r1 := (s.drop w.length).dropWhile jsSpace
  !w.isEmpty &&
    match r1 with
    | op :: r2 =>
      (op == '+' || op == '-' || op == '*' || op == '/' || op == '=') &&
        (match r2.dropWhile jsSpace with
         | c :: _ => isWordC c
         | [] => false)
    | [] => false

/-- `/^\d+(\.\d+)?$/`: an integer or decimal literal. -/
def numberLitPat (s : List Char) : Bool :=
  let ds := s.takeWhile isDigitC
  !ds.isEmpty &&
    match s.drop ds.length with
    | [] => true
    | '.' :: rest => !rest.isEmpty && rest.all isDigitC
    | _ => false

/-- A string delimited by `q` with no inner `q` (`/^"[^"]*"$/`, `/^'[^']*'$/`). -/
def quotedLitPat (q : Char) (s : List Char) : Bool :=
  s.length ≥ 2 && s.head? == some q && s.getLast? == some q &&
    (s.drop 1).dropLast.all (· != q)

/-- A bracket-delimited literal where `.` of the regex excludes newlines
(`/^\x7b.*\x7d$/` for JSON objects, `/^\[.*\]$/` for arrays). -/
def bracketLitPat (l r : Char) (s : List Char) : Bool :=
  s.length ≥ 2 && s.head? == some l && s.getLast? == some r &&
    (s.drop 1).dropLast.all (fun c => c != '\n' && c != '\r')

/-- The `returnDataPatterns` battery of the classifier (source step 3). -/
def returnDataPattern (s : List Char) : Bool :=
  (s == "void".data || s == "null".data || s == "undefined".data) ||
  letterSpaceNounPat s ||
  arraySuffixPat s ||
  genericAnglePat "list<".data s ||
  genericAnglePat "map<".data s ||
  genericAnglePat "optional<".data s ||
  assignExprPat s ||
  (s == "true".data || s == "false".data) ||
  numberLitPat s ||
  quotedLitPat '"' s ||
  quotedLitPat '\'' s ||
  bracketLitPat '{' '}' s ||
  bracketLitPat '[' ']' s

/-- `returnActionPatterns` (source step 4a): communication, logging and
cleanup methods, e.g. `/\.(send|emit|publish|notify)\s*\(/i`. -/
def returnActionMatch (s : List Char) : Bool :=
  dotKwParen ["send".data, "emit".data, "publish".data, "notify".data] s ||
  dotKwParen ["log".data, "trace".data, "debug".data, "info".data,
    "warn".data, "error".data, "print".data, "println".data] s ||
  dotKwParen ["close".data, "dispose".data, "cleanup".data,
    "finalize".data, "shutdown".data] s

/-- `contextualReturnPatterns` (source step 4b): state-change and
persistence methods. -/
def contextualPatternMatch (s : List Char) : Bool :=
  dotKwParen ["update".data, "set".data, "put".data, "add".data,
    "remove".data, "delete".data, "clear".data, "reset".data] s ||
  dotKwParen ["save".data, "persist".data, "store".data,
    "write".data, "flush".data] s

/-- `/^[a-z]+\.[a-z]+\(/i` (`directPropertyPattern` of the source): with
the `i` flag, `[a-z]` matches any letter. -/
def directPropertyPat (s : List Char) : Bool :=
  let w := s.takeWhile isAlphaC
  !w.isEmpty &&
    match s.drop w.length with
    | '.' :: rest =>
      let w2 := rest.takeWhile isAlphaC
      !w2.isEmpty && (rest.drop w2.length).head? == some '('
    | _ => false

/-- The side-effect receiver names of step 4b. -/
def sideEffectObjects : List String :=
  ["cache", "storage", "log", "logger", "database", "db", "repo", "repository"]

/-- Step 4b in full: a contextual pattern hit on a direct `object.method(`
expression whose receiver (the text before the first dot) is one of the
side-effect names. -/
def contextualSideEffect (s : List Char) : Bool :=
  contextualPatternMatch s &&
    (directPropertyPat s &&
      sideEffectObjects.contains ⟨s.takeWhile (· != '.')⟩)

/-- `/^[a-z][a-zA-Z]*\s*\(/` or `/^[A-Z][a-zA-Z]*\s*\(/`: an identifier
immediately applied (first two `definiteCallPatterns`). The letter class
of the head is passed in (`isLowerC` resp. `isUpperC`; no `i` flag). -/
def anchoredCallPat (head : Char → Bool) (s : List Char) : Bool :=
  match s with
  | c :: rest =>
    head c &&
      let w := rest.takeWhile isAlphaC
      ((rest.drop w.length).dropWhile jsSpace).head? == some '('
  | [] => false

/-- `/^[a-z]+\.(get|find|query|select|retrieve)\s*\(/i`: the anchored
object-getter pattern (last of the `definiteCallPatterns`). -/
def anchoredObjGetPat (s : List Char) : Bool :=
  let w := s.takeWhile isAlphaC
  !w.isEmpty &&
    match s.drop w.length with
    | '.' :: rest =>
      ["get".data, "find".data, "query".data, "select".data, "retrieve".data].any fun kw =>
        isPrefixL kw rest &&
          ((rest.drop kw.length).dropWhile jsSpace).head? == some '('
    | _ => false

/-- The `definiteCallPatterns` battery of the classifier (source step 4c). -/
def definiteCallMatch (s : List Char) : Bool :=
  anchoredCallPat isLowerC s ||
  anchoredCallPat isUpperC s ||
  dotKwParen ["get".data, "find".data, "fetch".data, "retrieve".data, "load".data,
    "read".data, "query".data, "search".data, "select".data] s ||
  dotKwParen ["create".data, "make".data, "build".data, "construct".data,
    "new".data, "generate".data] s ||
  dotKwParen ["process".data, "execute".data, "run".data, "perform".data,
    "handle".data, "manage".data, "do".data] s ||
  dotKwParen ["validate".data, "verify".data, "check".data, "test".data,
    "confirm".data, "ensure".data] s ||
  dotKwParen ["calculate".data, "compute".data, "sum".data, "count".data,
    "total".data, "aggregate".data] s ||
  dotKwParen ["connect".data, "disconnect".data, "open".data, "start".data,
    "stop".data, "begin".data, "end".data, "init".data] s ||
  dotKwParen ["deposit".data, "withdraw".data, "transfer".data,
    "payment".data, "transaction".data] s ||
  anchoredObjGetPat s

/-- `/^[a-z][a-zA-Z]*\.[a-z][a-zA-Z]*\(/i` (`propertyMethodPattern`,
source step 4d); with the `i` flag it coincides with `directPropertyPat`. -/
def propertyMethodPat (s : List Char) : Bool := directPropertyPat s

/-- The `returnIndicators` word list of step 5. -/
def returnIndicators : List String :=
  ["object", "instance", "data", "result", "value", "response",
   "=", "+=", "-=", "*=", "/=", "++", "--",
   "success", "error", "failed", "completed", "finished",
   "updated", "saved", "deleted", "created"]

/-- The `commandWords` list of step 5. -/
def commandWords : List String :=
  ["start", "stop", "begin", "end", "run", "execute", "process", "handle"]

/-- The classifier core on the lower-cased message name and declared type
(`detectReturnMessage`, part_006 lines 386–545). `true` means the message
is classified as a return and is not recorded in the call graph. -/
def detectReturnCore (messageName messageType : List Char) : Bool :=
  -- 1. declared type literally return/reply/response
  if messageType == "return".data || messageType == "reply".data ||
      messageType == "response".data then true
  -- 2. return keywords: leading or word-bounded return/reply/response
  else if isPrefixL "return".data messageName || isPrefixL "reply".data messageName ||
      isPrefixL "response".data messageName ||
      wbContains "return".data none messageName ||
      wbContains "reply".data none messageName ||
      wbContains "response".data none messageName then true
  -- 3. data/value-shaped names
  else if returnDataPattern messageName then true
  -- 4. names containing a call expression
  else if containsL messageName ['('] && containsL messageName [')'] then
    if returnActionMatch messageName then true
    else if contextualSideEffect messageName then true
    else if definiteCallMatch messageName then false
    else if propertyMethodPat messageName then false
    else false
  -- 5. no parentheses at all
  else if !containsL messageName ['('] then
    if returnIndicators.any (fun ind => containsL messageName ind.data) then true
    else if !(commandWords.any fun cmd => containsL messageName cmd.data) &&
        messageName.length < 20 then true
    else false
  else false

/-- `detectReturnMessage(message, fromObj, toObj)` of the source: only the
message itself is inspected (the two participants are unused, as in the
source). -/
def detectReturnMessage (message : Message) (fromObj toObj : ObjectNode) : Bool :=
  detectReturnCore (lowerL message.name.data) (lowerL message.type.data)


/-! ## Call Graph Builder (part_006, `generateCode`, lines 226–712)

The call graph (`Map<string, Set<string>>` from caller type to callee
types) is embedded as an insertion-ordered edge list without duplicates:
membership of a pair in the list is exactly membership of the callee in
the caller's set. -/

/-- The call graph: an insertion-ordered list of `(caller, callee)` edges. -/
abbrev Graph : Type := List (String × String)

/-- Record an edge, modelling `callGraph.get(from).add(to)` (a no-op when
the edge is already present). -/
def addEdge (g : Graph) (caller callee : String) : Graph :=
  if (caller, callee) ∈ g then g else g ++ [(caller, callee)]

/-- `mapOperationToClassName` (part_006 lines 245–286): derive a synthetic
service-class name from an unresolved REF operation label. -/
def mapOperationToClassName (operationName : String) : String :=
  let lowerOp := strLower operationName
  if containsStr lowerOp "deposit" then "TransactionService"
  else if containsStr lowerOp "withdraw" then "TransactionService"
  else if containsStr lowerOp "transfer" then "TransactionService"
  else if containsStr lowerOp "process" then "TransactionService"
  else if containsStr lowerOp "insert" || containsStr lowerOp "save" ||
      containsStr lowerOp "store" then "DataService"
  else if containsStr lowerOp "update" || containsStr lowerOp "modify" then "DataService"
  else if containsStr lowerOp "transform" || containsStr lowerOp "convert" then
    "TransformService"
  else if containsStr lowerOp "validate" || containsStr lowerOp "check" then
    "ValidationService"
  else if containsStr lowerOp "calculate" || containsStr lowerOp "compute" then
    "CalculationService"
  else if containsStr lowerOp "request" || containsStr lowerOp "call" then "RequestService"
  else if containsStr lowerOp "response" || containsStr lowerOp "reply" then
    "ResponseService"
  else
    match operationName.data with
    | [] => "Service"
    | c :: rest => ⟨upperC c :: rest⟩ ++ "Service"

/-- Process one message of a diagram (the body of the `messages.forEach`
of `processSequenceDiagramRecursively`, part_006 lines 298–333): look the
endpoints up, skip returns, self-calls and ACTOR/REF endpoints, and record
the edge otherwise. -/
def processOneMessage (d : SequenceDiagram) (g : Graph) (message : Message) : Graph :=
  match d.objects.find? (fun obj => obj.id == message.fromId) with
  | none => g
  | some fromObj =>
    match d.objects.find? (fun obj => obj.id == message.toId) with
    | none => g
    | some toObj =>
      if fromObj.type != "" && toObj.type != "" then
        if detectReturnMessage message fromObj toObj then g
        else if fromObj.type == toObj.type then g
        else if fromObj.type == "ACTOR" || toObj.type == "ACTOR" ||
            fromObj.type == "REF" || toObj.type == "REF" then g
        else addEdge g fromObj.type toObj.type
      else g

/-- All messages of a diagram, in order. -/
def processMessages (g : Graph) (d : SequenceDiagram) : Graph :=
  d.messages.foldl (processOneMessage d) g

/-- Resolve a reference's diagram name against the loaded diagrams:
an exact name match first, then the lower-cased mutual-containment fuzzy
match (part_006 lines 337–344). -/
def findRefDiagram (sequenceDiagrams : List SequenceDiagram) (refDiagramName : String) :
    Option SequenceDiagram :=
  match sequenceDiagrams.find? (fun d => d.name == refDiagramName) with
  | some d => some d
  | none =>
    sequenceDiagrams.find? fun d =>
      containsStr (strLower d.name) (strLower refDiagramName) ||
      containsStr (strLower refDiagramName) (strLower d.name)

/-- The unresolved-reference fallback (part_006 lines 348–379): synthesize
a service-class name; if a REF participant is found, derive edges from the
messages into/out of it, otherwise connect every selected class to the
synthetic service. -/
def fallbackEdges (selectedClasses : List ClassInfo) (g : Graph) (d : SequenceDiagram)
    (ref : Reference) (refDiagramName : String) : Graph :=
  let serviceClassName := mapOperationToClassName refDiagramName
  match d.objects.find? (fun obj => obj.name == ref.name || obj.type == "REF") with
  | some refObject =>
    d.messages.foldl
      (fun g msg =>
        match d.objects.find? (fun obj => obj.id == msg.fromId) with
        | none => g
        | some fromObj =>
          match d.objects.find? (fun obj => obj.id == msg.toId) with
          | none => g
          | some toObj =>
            let g1 :=
              if msg.toId == refObject.id && fromObj.type != "ACTOR" &&
                  fromObj.type != "REF" then
                addEdge g fromObj.type serviceClassName
              else g
            if msg.fromId == refObject.id && toObj.type != "ACTOR" &&
                toObj.type != "REF" then
              addEdge g1 serviceClassName toObj.type
            else g1)
      g
  | none =>
    selectedClasses.foldl (fun g cls => addEdge g cls.name serviceClassName) g

/-- The state threaded through the recursive traversal: the call graph,
the visited-diagram-name set, and a marker that is `false` exactly when
the fuel bound of the embedding was exhausted somewhere (the source
recursion has no fuel; the marker witnesses that a given bound suffices). -/
structure RecResult where
  graph : Graph
  visited : List String
  ok : Bool

/-- The `references.forEach` loop (part_006 lines 335–382), parameterized
by the recursive entry `recur` used for resolved references: resolve each
reference and either recurse into the referenced diagram or apply the
fallback. -/
def processRefsGo (ds : List SequenceDiagram) (sel : List ClassInfo)
    (recur : List String → Graph → SequenceDiagram → RecResult) :
    List String → Graph → SequenceDiagram → List Reference → RecResult
  | v, g, _, [] => ⟨g, v, true⟩
  | v, g, d, ref :: rest =>
    match ref.diagramName with
    | none => processRefsGo ds sel recur v g d rest
    | some refDiagramName =>
      match findRefDiagram ds refDiagramName with
      | some refDiagram =>
        let p := recur v g refDiagram
        let q := processRefsGo ds sel recur p.visited p.graph d rest
        ⟨q.graph, q.visited, p.ok && q.ok⟩
      | none =>
        processRefsGo ds sel recur v (fallbackEdges sel g d ref refDiagramName) d rest

/-- `processSequenceDiagramRecursively(diagram, visited)` (part_006
lines 289–383): skip visited diagrams, process the messages, then walk the
references in order. `fuel` bounds the recursion depth of the embedding;
`traversal_ok` below shows the bound `ds.length + 1` is never reached. -/
def processRecF (ds : List SequenceDiagram) (sel : List ClassInfo) :
    Nat → List String → Graph → SequenceDiagram → RecResult
  | 0, v, g, _ => ⟨g, v, false⟩
  | fuel + 1, v, g, d =>
    if v.contains d.name then ⟨g, v, true⟩
    else
      processRefsGo ds sel (fun v g d => processRecF ds sel fuel v g d)
        (d.name :: v) (processMessages g d) d d.references

/-- The reference walk at a given fuel level. -/
def processRefsF (ds : List SequenceDiagram) (sel : List ClassInfo) (fuel : Nat)
    (v : List String) (g : Graph) (d : SequenceDiagram) (refs : List Reference) :
    RecResult :=
  processRefsGo ds sel (fun v g d => processRecF ds sel fuel v g d) v g d refs

/-- One generation run's call-graph construction (part_006 lines 548–550):
every loaded diagram is processed with a fresh visited set; the `ok`
markers of all top-level traversals are conjoined. -/
def buildCallGraphRunF (ds : List SequenceDiagram) (sel : List ClassInfo) (fuel : Nat) :
    Graph × Bool :=
  ds.foldl
    (fun p d =>
      let r := processRecF ds sel fuel [] p.1 d
      (r.graph, p.2 && r.ok))
    (∅, true)

/-- The call graph of a generation run. The fuel `ds.length + 1` is proved
sufficient in the termination section below. -/
def buildCallGraph (ds : List SequenceDiagram) (sel : List ClassInfo) : Graph :=
  (buildCallGraphRunF ds sel (ds.length + 1)).1


/-! ## Stub/Driver Set Resolver and artifact generation
(part_006, `generateCode`, lines 555–705)

Only the artifact-level outputs (file name, kind, related class) are
modelled; the Java source text rendered into `fileContent` by
`generateStubCode` / `generateServiceStubCode` / `generateDriverCode`
contains wall-clock timestamps and random literal values and is outside
the scope of the claims under verification. -/

/-- Insert into a JS `Set` modelled as a list (no-op when present). -/
def insertUnique (l : List String) (x : String) : List String :=
  if x ∈ l then l else l ++ [x]

/-- The callee set `callGraph.get(name)` of a caller, in insertion order. -/
def calledClasses (g : Graph) (name : String) : List String :=
  (g.filter (fun e => e.1 == name)).map (fun e => e.2)

/-- The callers of the graph in `Map` iteration order (first-insertion
order of the keys). -/
def graphCallers (g : Graph) : List String := dedupKF (g.map (fun e => e.1))

/-- `neededStubs` (part_006 lines 563–570): for every selected class, the
classes it calls that are not themselves selected. -/
def neededStubs (g : Graph) (sel : List ClassInfo) : List String :=
  sel.foldl
    (fun acc classUnderTest =>
      (calledClasses g classUnderTest.name).foldl
        (fun acc calledClassName =>
          if (sel.map (fun c => c.name)).contains calledClassName then acc
          else insertUnique acc calledClassName)
        acc)
    []

/-- `neededDrivers` (part_006 lines 572–580): for every selected class,
the callers that reach it and are not themselves selected. -/
def neededDrivers (g : Graph) (sel : List ClassInfo) : List String :=
  sel.foldl
    (fun acc classUnderTest =>
      (graphCallers g).foldl
        (fun acc callerClassName =>
          if (callerClassName, classUnderTest.name) ∈ g then
            if (sel.map (fun c => c.name)).contains callerClassName then acc
            else insertUnique acc callerClassName
          else acc)
        acc)
    []

/-- A generated artifact (`GeneratedCode` in the source), restricted to
the deterministic fields. -/
structure GeneratedArtifact where
  fileName : String
  type : String
  relatedClass : String
deriving DecidableEq, Repr

/-- The artifact batch of one generation run (part_006 lines 586–685):
one stub file per needed stub, one driver file per needed driver (with
file-name de-duplication), and the single summary artifact when nothing
was generated. -/
def generateArtifacts (g : Graph) (sel : List ClassInfo) : List GeneratedArtifact :=
  let stubStep :=
    (neededStubs g sel).foldl
      (fun (p : List GeneratedArtifact × List String) stubClassName =>
        let stubFileName := stubClassName ++ "Stub.java"
        if p.2.contains stubFileName then p
        else (p.1 ++ [⟨stubFileName, "stub", stubClassName⟩], p.2 ++ [stubFileName]))
      ([], [])
  let driverStep :=
    (neededDrivers g sel).foldl
      (fun (p : List GeneratedArtifact × List String) driverClassName =>
        let driverFileName := driverClassName ++ "Driver.java"
        if p.2.contains driverFileName then p
        else (p.1 ++ [⟨driverFileName, "driver", driverClassName⟩], p.2 ++ [driverFileName]))
      stubStep
  if driverStep.1.isEmpty then
    [⟨"TestAnalysisSummary.txt", "driver", "Analysis"⟩]
  else
    driverStep.1


/-! ## Termination of the recursive traversal

The source recursion (`processSequenceDiagramRecursively`) is guarded by
the visited-diagram-name set. The embedding makes the recursion depth
explicit through `fuel`; the lemmas below show that the visited set only
grows, that every properly entered diagram strictly shrinks the count of
unvisited loaded diagrams, and hence that fuel `ds.length + 1` is never
exhausted: the guarded recursion terminates on every finite collection,
reference cycles included. -/

theorem processRecF_zero (ds : List SequenceDiagram) (sel : List ClassInfo)
    (v : List String) (g : Graph) (d : SequenceDiagram) :
    processRecF ds sel 0 v g d = ⟨g, v, false⟩ := by
  rw [processRecF]

theorem processRecF_succ (ds : List SequenceDiagram) (sel : List ClassInfo) (fuel : Nat)
    (v : List String) (g : Graph) (d : SequenceDiagram) :
    processRecF ds sel (fuel + 1) v g d =
      if v.contains d.name then ⟨g, v, true⟩
      else processRefsF ds sel fuel (d.name :: v) (processMessages g d) d d.references := rfl

theorem processRefsF_nil (ds : List SequenceDiagram) (sel : List ClassInfo) (fuel : Nat)
    (v : List String) (g : Graph) (d : SequenceDiagram) :
    processRefsF ds sel fuel v g d [] = ⟨g, v, true⟩ := rfl

theorem processRefsF_cons (ds : List SequenceDiagram) (sel : List ClassInfo) (fuel : Nat)
    (v : List String) (g : Graph) (d : SequenceDiagram) (ref : Reference)
    (rest : List Reference) :
    processRefsF ds sel fuel v g d (ref :: rest) =
      match ref.diagramName with
      | none => processRefsF ds sel fuel v g d rest
      | some refDiagramName =>
        match findRefDiagram ds refDiagramName with
        | some refDiagram =>
          let p := processRecF ds sel fuel v g refDiagram
          let q := processRefsF ds sel fuel p.visited p.graph d rest
          ⟨q.graph, q.visited, p.ok && q.ok⟩
        | none =>
          processRefsF ds sel fuel v (fallbackEdges sel g d ref refDiagramName) d rest := rfl

theorem processRefsF_cons_none (ds : List SequenceDiagram) (sel : List ClassInfo)
    (fuel : Nat) (v : List String) (g : Graph) (d : SequenceDiagram) (ref : Reference)
    (rest : List Reference) (h : ref.diagramName = none) :
    processRefsF ds sel fuel v g d (ref :: rest) = processRefsF ds sel fuel v g d rest := by
  rw [processRefsF_cons, h]

theorem processRefsF_cons_found (ds : List SequenceDiagram) (sel : List ClassInfo)
    (fuel : Nat) (v : List String) (g : Graph) (d : SequenceDiagram) (ref : Reference)
    (rest : List Reference) (rname : String) (rd : SequenceDiagram)
    (h1 : ref.diagramName = some rname) (h2 : findRefDiagram ds rname = some rd) :
    processRefsF ds sel fuel v g d (ref :: rest) =
      ⟨(processRefsF ds sel fuel (processRecF ds sel fuel v g rd).visited
          (processRecF ds sel fuel v g rd).graph d rest).graph,
       (processRefsF ds sel fuel (processRecF ds sel fuel v g rd).visited
          (processRecF ds sel fuel v g rd).graph d rest).visited,
       (processRecF ds sel fuel v g rd).ok &&
       (processRefsF ds sel fuel (processRecF ds sel fuel v g rd).visited
          (processRecF ds sel fuel v g rd).graph d rest).ok⟩ := by
  rw [processRefsF_cons, h1]
  simp only [h2]

theorem processRefsF_cons_fallback (ds : List SequenceDiagram) (sel : List ClassInfo)
    (fuel : Nat) (v : List String) (g : Graph) (d : SequenceDiagram) (ref : Reference)
    (rest : List Reference) (rname : String)
    (h1 : ref.diagramName = some rname) (h2 : findRefDiagram ds rname = none) :
    processRefsF ds sel fuel v g d (ref :: rest) =
      processRefsF ds sel fuel v (fallbackEdges sel g d ref rname) d rest := by
  rw [processRefsF_cons, h1]
  simp only [h2]

/-- A resolved reference diagram is one of the loaded diagrams. -/
theorem findRefDiagram_mem {ds : List SequenceDiagram} {rname : String}
    {rd : SequenceDiagram} (hfd : findRefDiagram ds rname = some rd) : rd ∈ ds := by
  unfold findRefDiagram at hfd
  rcases hfind : ds.find? (fun d => d.name == rname) with _ | d0
  · rw [hfind] at hfd
    exact List.mem_of_find?_eq_some hfd
  · rw [hfind] at hfd
    cases hfd
    exact List.mem_of_find?_eq_some hfind

/-- The visited set only grows along the traversal. -/
theorem visited_subset (ds : List SequenceDiagram) (sel : List ClassInfo) :
    ∀ fuel : Nat,
      (∀ v g d, v ⊆ (processRecF ds sel fuel v g d).visited) ∧
      (∀ refs v g d, v ⊆ (processRefsF ds sel fuel v g d refs).visited) := by
  intro fuel
  induction fuel with
  | zero =>
    constructor
    · intro v g d
      rw [processRecF_zero]
      exact fun x hx => hx
    · intro refs
      induction refs with
      | nil =>
        intro v g d
        rw [processRefsF_nil]
        exact fun x hx => hx
      | cons ref rest ihr =>
        intro v g d
        cases hdn : ref.diagramName with
        | none =>
          rw [processRefsF_cons_none ds sel 0 v g d ref rest hdn]
          exact ihr v g d
        | some rname =>
          cases hfd : findRefDiagram ds rname with
          | none =>
            rw [processRefsF_cons_fallback ds sel 0 v g d ref rest rname hdn hfd]
            exact ihr v _ d
          | some rd =>
            rw [processRefsF_cons_found ds sel 0 v g d ref rest rname rd hdn hfd,
              processRecF_zero]
            exact ihr v g d
  | succ fuel ih =>
    have recPart : ∀ v g d, v ⊆ (processRecF ds sel (fuel + 1) v g d).visited := by
      intro v g d
      rw [processRecF_succ]
      by_cases hv : v.contains d.name
      · simp only [hv, if_true]
        exact fun x hx => hx
      · simp only [hv, Bool.false_eq_true, if_false]
        intro x hx
        exact ih.2 d.references (d.name :: v) (processMessages g d) d
          (List.mem_cons_of_mem _ hx)
    refine ⟨recPart, ?_⟩
    intro refs
    induction refs with
    | nil =>
      intro v g d
      rw [processRefsF_nil]
      exact fun x hx => hx
    | cons ref rest ihr =>
      intro v g d
      cases hdn : ref.diagramName with
      | none =>
        rw [processRefsF_cons_none ds sel (fuel + 1) v g d ref rest hdn]
        exact ihr v g d
      | some rname =>
        cases hfd : findRefDiagram ds rname with
        | none =>
          rw [processRefsF_cons_fallback ds sel (fuel + 1) v g d ref rest rname hdn hfd]
          exact ihr v _ d
        | some rd =>
          rw [processRefsF_cons_found ds sel (fuel + 1) v g d ref rest rname rd hdn hfd]
          intro x hx
          exact ihr _ _ d (recPart v g rd hx)

/-- The number of loaded diagrams not yet visited: the termination measure
realised by the visited-set guard. -/
def unvisitedCount (ds : List SequenceDiagram) (v : List String) : Nat :=
  (ds.filter (fun d => !(v.contains d.name))).length

theorem unvisitedCount_le_of_subset {v w : List String} (h : v ⊆ w) :
    ∀ ds : List SequenceDiagram, unvisitedCount ds w ≤ unvisitedCount ds v := by
  intro ds
  induction ds with
  | nil => exact Nat.le_refl _
  | cons e ds' ih =>
    simp only [unvisitedCount, List.filter_cons] at *
    by_cases hmw : e.name ∈ w
    · have hw : (!(w.contains e.name)) = false := by
        rw [list_contains_iff.2 hmw]; rfl
      simp only [hw, Bool.false_eq_true, if_false]
      by_cases hmv : e.name ∈ v
      · have hv : (!(v.contains e.name)) = false := by
          rw [list_contains_iff.2 hmv]; rfl
        simp only [hv, Bool.false_eq_true, if_false]
        exact ih
      · have hv : (!(v.contains e.name)) = true := by
          rw [list_contains_false_iff.2 hmv]; rfl
        simp only [hv, if_true, List.length_cons]
        exact Nat.le_succ_of_le ih
    · have hmv : e.name ∉ v := fun hm => hmw (h hm)
      have hw : (!(w.contains e.name)) = true := by
        rw [list_contains_false_iff.2 hmw]; rfl
      have hv : (!(v.contains e.name)) = true := by
        rw [list_contains_false_iff.2 hmv]; rfl
      simp only [hw, hv, if_true, List.length_cons]
      exact Nat.succ_le_succ ih

theorem unvisitedCount_cons_lt {x : String} {v : List String} (hx : x ∉ v) :
    ∀ ds : List SequenceDiagram, (∃ d ∈ ds, d.name = x) →
      unvisitedCount ds (x :: v) < unvisitedCount ds v := by
  intro ds
  induction ds with
  | nil => rintro ⟨d, hd, -⟩; cases hd
  | cons e ds' ih =>
    rintro ⟨d, hd, hname⟩
    have hsub : v ⊆ x :: v := List.subset_cons_self _ _
    have hmono := unvisitedCount_le_of_subset hsub ds'
    simp only [unvisitedCount, List.filter_cons]
    by_cases hex : e.name = x
    · have hv : (!(v.contains e.name)) = true := by
        rw [list_contains_false_iff.2 (hex ▸ hx)]; rfl
      have hxv : (!((x :: v).contains e.name)) = false := by
        have hmem : e.name ∈ x :: v := hex ▸ List.mem_cons_self x v
        rw [list_contains_iff.2 hmem]; rfl
      simp only [hv, hxv, if_true, Bool.false_eq_true, if_false, List.length_cons]
      exact Nat.lt_succ_of_le hmono
    · have hd' : ∃ d ∈ ds', d.name = x := by
        rcases List.mem_cons.1 hd with rfl | hmem
        · exact absurd hname hex
        · exact ⟨d, hmem, hname⟩
      by_cases hmv : e.name ∈ v
      · have h1 : (!(v.contains e.name)) = false := by rw [list_contains_iff.2 hmv]; rfl
        have h2 : (!((x :: v).contains e.name)) = false := by
          rw [list_contains_iff.2 (List.mem_cons_of_mem x hmv)]; rfl
        simp only [h1, h2, Bool.false_eq_true, if_false]
        exact ih hd'
      · have hmxv : e.name ∉ x :: v := by
          intro hm
          rcases List.mem_cons.1 hm with h | h
          · exact hex h
          · exact hmv h
        have h1 : (!(v.contains e.name)) = true := by
          rw [list_contains_false_iff.2 hmv]; rfl
        have h2 : (!((x :: v).contains e.name)) = true := by
          rw [list_contains_false_iff.2 hmxv]; rfl
        simp only [h1, h2, if_true, List.length_cons]
        exact Nat.succ_lt_succ (ih hd')

/-- With fuel exceeding the number of still-unvisited loaded diagrams, the
traversal never exhausts its fuel: the `ok` marker stays `true`. -/
theorem traversal_ok (ds : List SequenceDiagram) (sel : List ClassInfo) :
    ∀ fuel : Nat,
      (∀ v g d, d ∈ ds → unvisitedCount ds v < fuel →
        (processRecF ds sel fuel v g d).ok = true) ∧
      (∀ refs v g d, unvisitedCount ds v < fuel →
        (processRefsF ds sel fuel v g d refs).ok = true) := by
  intro fuel
  induction fuel with
  | zero =>
    exact ⟨fun v g d _ h => absurd h (Nat.not_lt_zero _),
      fun refs v g d h => absurd h (Nat.not_lt_zero _)⟩
  | succ fuel ih =>
    have recPart : ∀ v g d, d ∈ ds → unvisitedCount ds v < fuel + 1 →
        (processRecF ds sel (fuel + 1) v g d).ok = true := by
      intro v g d hd hcnt
      rw [processRecF_succ]
      by_cases hv : v.contains d.name = true
      · rw [if_pos hv]
      · rw [if_neg hv]
        have hnv : d.name ∉ v := list_contains_false_iff.1 (by simpa using hv)
        have hlt : unvisitedCount ds (d.name :: v) < fuel := by
          have h1 := unvisitedCount_cons_lt hnv ds ⟨d, hd, rfl⟩
          omega
        exact ih.2 d.references (d.name :: v) (processMessages g d) d hlt
    refine ⟨recPart, ?_⟩
    intro refs
    induction refs with
    | nil =>
      intro v g d hcnt
      rw [processRefsF_nil]
    | cons ref rest ihr =>
      intro v g d hcnt
      cases hdn : ref.diagramName with
      | none =>
        rw [processRefsF_cons_none ds sel (fuel + 1) v g d ref rest hdn]
        exact ihr v g d hcnt
      | some rname =>
        cases hfd : findRefDiagram ds rname with
        | none =>
          rw [processRefsF_cons_fallback ds sel (fuel + 1) v g d ref rest rname hdn hfd]
          exact ihr v _ d hcnt
        | some rd =>
          rw [processRefsF_cons_found ds sel (fuel + 1) v g d ref rest rname rd hdn hfd]
          have hrdmem : rd ∈ ds := findRefDiagram_mem hfd
          have hpok : (processRecF ds sel (fuel + 1) v g rd).ok = true :=
            recPart v g rd hrdmem hcnt
          have hsub : v ⊆ (processRecF ds sel (fuel + 1) v g rd).visited :=
            (visited_subset ds sel (fuel + 1)).1 v g rd
          have hcnt2 :
              unvisitedCount ds (processRecF ds sel (fuel + 1) v g rd).visited
                < fuel + 1 :=
            Nat.lt_of_le_of_lt (unvisitedCount_le_of_subset hsub ds) hcnt
          have hqok := ihr (processRecF ds sel (fuel + 1) v g rd).visited
            (processRecF ds sel (fuel + 1) v g rd).graph d hcnt2
          simp [hpok, hqok]

/-- The count of unvisited diagrams with an empty visited set is the
number of loaded diagrams. -/
theorem unvisitedCount_nil (ds : List SequenceDiagram) :
    unvisitedCount ds [] = ds.length := by
  simp [unvisitedCount]


/-! ## The call-graph edge invariant

The message-processing path of the builder only records an edge after
checking that the endpoints differ and that neither is one of the
sentinels `"ACTOR"`/`"REF"`. When every reference of every loaded diagram
resolves to a loaded diagram, the unresolved-reference fallback never
runs, and the invariant holds of the whole call graph. -/

/-- The invariant of a single edge: no self-edge, no sentinel endpoint. -/
def edgeOK (e : String × String) : Prop :=
  e.1 ≠ e.2 ∧ e.1 ≠ "ACTOR" ∧ e.1 ≠ "REF" ∧ e.2 ≠ "ACTOR" ∧ e.2 ≠ "REF"

/-- The invariant of a call graph. -/
def graphOK (g : Graph) : Prop := ∀ e ∈ g, edgeOK e

theorem graphOK_nil : graphOK [] := fun _ h => absurd h (List.not_mem_nil _)

theorem graphOK_addEdge {g : Graph} {a b : String} (hg : graphOK g)
    (hab : edgeOK (a, b)) : graphOK (addEdge g a b) := by
  unfold addEdge
  by_cases hmem : (a, b) ∈ g
  · rw [if_pos hmem]; exact hg
  · rw [if_neg hmem]
    intro e he
    rcases List.mem_append.1 he with h | h
    · exact hg e h
    · rcases List.mem_singleton.1 h with rfl
      exact hab

theorem processOneMessage_eq_of_from_none {d : SequenceDiagram} {message : Message}
    (g : Graph) (hf : d.objects.find? (fun obj => obj.id == message.fromId) = none) :
    processOneMessage d g message = g := by
  unfold processOneMessage
  rw [hf]

theorem processOneMessage_eq_of_to_none {d : SequenceDiagram} {message : Message}
    (g : Graph) {fromObj : ObjectNode}
    (hf : d.objects.find? (fun obj => obj.id == message.fromId) = some fromObj)
    (ht : d.objects.find? (fun obj => obj.id == message.toId) = none) :
    processOneMessage d g message = g := by
  unfold processOneMessage
  rw [hf, ht]

theorem processOneMessage_eq_of_found {d : SequenceDiagram} {message : Message}
    (g : Graph) {fromObj toObj : ObjectNode}
    (hf : d.objects.find? (fun obj => obj.id == message.fromId) = some fromObj)
    (ht : d.objects.find? (fun obj => obj.id == message.toId) = some toObj) :
    processOneMessage d g message =
      (if fromObj.type != "" && toObj.type != "" then
        if detectReturnMessage message fromObj toObj then g
        else if fromObj.type == toObj.type then g
        else if fromObj.type == "ACTOR" || toObj.type == "ACTOR" ||
            fromObj.type == "REF" || toObj.type == "REF" then g
        else addEdge g fromObj.type toObj.type
      else g) := by
  unfold processOneMessage
  rw [hf, ht]

theorem processOneMessage_graphOK (d : SequenceDiagram) (message : Message) {g : Graph}
    (hg : graphOK g) : graphOK (processOneMessage d g message) := by
  rcases hf : d.objects.find? (fun obj => obj.id == message.fromId) with _ | fromObj
  · rw [processOneMessage_eq_of_from_none g hf]; exact hg
  · rcases ht : d.objects.find? (fun obj => obj.id == message.toId) with _ | toObj
    · rw [processOneMessage_eq_of_to_none g hf ht]; exact hg
    · rw [processOneMessage_eq_of_found g hf ht]
      by_cases h1 : (fromObj.type != "" && toObj.type != "") = true
      · rw [if_pos h1]
        by_cases h2 : detectReturnMessage message fromObj toObj = true
        · rw [if_pos h2]; exact hg
        · rw [if_neg h2]
          by_cases h3 : (fromObj.type == toObj.type) = true
          · rw [if_pos h3]; exact hg
          · rw [if_neg h3]
            by_cases h4 : (fromObj.type == "ACTOR" || toObj.type == "ACTOR" ||
                fromObj.type == "REF" || toObj.type == "REF") = true
            · rw [if_pos h4]; exact hg
            · rw [if_neg h4]
              refine graphOK_addEdge hg ?_
              simp only [Bool.or_eq_true, not_or, beq_iff_eq] at h3 h4
              exact ⟨by simpa using h3, h4.1.1.1, h4.1.2, h4.1.1.2, h4.2⟩
      · rw [if_neg h1]; exact hg

theorem processMessages_graphOK (d : SequenceDiagram) :
    ∀ (msgs : List Message) {g : Graph}, graphOK g →
      graphOK (msgs.foldl (processOneMessage d) g)
  | [], _, hg => hg
  | m :: ms, g, hg =>
    processMessages_graphOK d ms (processOneMessage_graphOK d m hg)

/-- Decidable resolvability of every reference of every loaded diagram. -/
def resolvableRefs (ds : List SequenceDiagram) : Bool :=
  ds.all fun d =>
    d.references.all fun r =>
      match r.diagramName with
      | none => true
      | some rname => (findRefDiagram ds rname).isSome

theorem resolvableRefs_spec {ds : List SequenceDiagram} (hres : resolvableRefs ds = true) :
    ∀ d ∈ ds, ∀ r ∈ d.references, ∀ rname, r.diagramName = some rname →
      (findRefDiagram ds rname).isSome = true := by
  intro d hd r hr rname hrn
  have h1 := (List.all_eq_true.1 hres) d hd
  have h2 := (List.all_eq_true.1 h1) r hr
  rw [hrn] at h2
  exact h2

/-- The edge invariant is preserved along the whole traversal when every
reference resolves. -/
theorem traversal_graphOK (ds : List SequenceDiagram) (sel : List ClassInfo)
    (hres : resolvableRefs ds = true) :
    ∀ fuel : Nat,
      (∀ v g d, d ∈ ds → graphOK g → graphOK (processRecF ds sel fuel v g d).graph) ∧
      (∀ refs v g d, d ∈ ds → (∀ r ∈ refs, r ∈ d.references) → graphOK g →
        graphOK (processRefsF ds sel fuel v g d refs).graph) := by
  intro fuel
  induction fuel with
  | zero =>
    constructor
    · intro v g d _ hg
      rw [processRecF_zero]
      exact hg
    · intro refs
      induction refs with
      | nil =>
        intro v g d _ _ hg
        rw [processRefsF_nil]
        exact hg
      | cons ref rest ihr =>
        intro v g d hd hsub hg
        have hrest : ∀ r ∈ rest, r ∈ d.references := fun r hr =>
          hsub r (List.mem_cons_of_mem _ hr)
        cases hdn : ref.diagramName with
        | none =>
          rw [processRefsF_cons_none ds sel 0 v g d ref rest hdn]
          exact ihr v g d hd hrest hg
        | some rname =>
          cases hfd : findRefDiagram ds rname with
          | none =>
            have hsome := resolvableRefs_spec hres d hd ref
              (hsub ref (List.mem_cons_self _ _)) rname hdn
            rw [hfd] at hsome
            cases hsome
          | some rd =>
            rw [processRefsF_cons_found ds sel 0 v g d ref rest rname rd hdn hfd,
              processRecF_zero]
            exact ihr v g d hd hrest hg
  | succ fuel ih =>
    have recPart : ∀ v g d, d ∈ ds → graphOK g →
        graphOK (processRecF ds sel (fuel + 1) v g d).graph := by
      intro v g d hd hg
      rw [processRecF_succ]
      by_cases hv : v.contains d.name = true
      · rw [if_pos hv]; exact hg
      · rw [if_neg hv]
        exact ih.2 d.references (d.name :: v) (processMessages g d) d hd
          (fun r hr => hr) (processMessages_graphOK d d.messages hg)
    refine ⟨recPart, ?_⟩
    intro refs
    induction refs with
    | nil =>
      intro v g d _ _ hg
      rw [processRefsF_nil]
      exact hg
    | cons ref rest ihr =>
      intro v g d hd hsub hg
      have hrest : ∀ r ∈ rest, r ∈ d.references := fun r hr =>
        hsub r (List.mem_cons_of_mem _ hr)
      cases hdn : ref.diagramName with
      | none =>
        rw [processRefsF_cons_none ds sel (fuel + 1) v g d ref rest hdn]
        exact ihr v g d hd hrest hg
      | some rname =>
        cases hfd : findRefDiagram ds rname with
        | none =>
          have hsome := resolvableRefs_spec hres d hd ref
            (hsub ref (List.mem_cons_self _ _)) rname hdn
          rw [hfd] at hsome
          cases hsome
        | some rd =>
          rw [processRefsF_cons_found ds sel (fuel + 1) v g d ref rest rname rd hdn hfd]
          have hrdmem : rd ∈ ds := findRefDiagram_mem hfd
          exact ihr _ _ d hd hrest (recPart v g rd hrdmem hg)

/-- The invariant holds of the full run when every reference resolves. -/
theorem buildCallGraph_graphOK (ds : List SequenceDiagram) (sel : List ClassInfo)
    (hres : resolvableRefs ds = true) : graphOK (buildCallGraph ds sel) := by
  unfold buildCallGraph buildCallGraphRunF
  have main : ∀ (l : List SequenceDiagram), (∀ d ∈ l, d ∈ ds) →
      ∀ (p : Graph × Bool), graphOK p.1 →
        graphOK (l.foldl
          (fun p d =>
            let r := processRecF ds sel (ds.length + 1) [] p.1 d
            (r.graph, p.2 && r.ok)) p).1 := by
    intro l
    induction l with
    | nil => intro _ p hp; exact hp
    | cons d l' ihl =>
      intro hmem p hp
      exact ihl (fun e he => hmem e (List.mem_cons_of_mem _ he)) _
        ((traversal_graphOK ds sel hres (ds.length + 1)).1 [] p.1 d
          (hmem d (List.mem_cons_self _ _)) hp)
  exact main ds (fun d hd => hd) (∅, true) graphOK_nil


/-- `detectReturnMessage` only inspects the message, never the two
participant arguments (as in the source). -/
theorem detectReturnMessage_indep (message : Message) (a b c d : ObjectNode) :
    detectReturnMessage message a b = detectReturnMessage message c d := rfl

/-- A message classified as a return by the classifier contributes no edge
in the message-processing path: the step function returns the graph
unchanged. -/
theorem processOneMessage_return_skip (d : SequenceDiagram) (g : Graph)
    (message : Message) (fO tO : ObjectNode)
    (h : detectReturnMessage message fO tO = true) :
    processOneMessage d g message = g := by
  rcases hf : d.objects.find? (fun obj => obj.id == message.fromId) with _ | fromObj
  · exact processOneMessage_eq_of_from_none g hf
  · rcases ht : d.objects.find? (fun obj => obj.id == message.toId) with _ | toObj
    · exact processOneMessage_eq_of_to_none g hf ht
    · rw [processOneMessage_eq_of_found g hf ht]
      have hdet : detectReturnMessage message fromObj toObj = true := by
        rw [detectReturnMessage_indep message fromObj toObj fO tO]
        exact h
      by_cases h1 : (fromObj.type != "" && toObj.type != "") = true
      · rw [if_pos h1, if_pos hdet]
      · rw [if_neg h1]


/-! ## Requirement Table Parser (`processRTMFile`, fileUtils.ts lines 47–329)

The CSV lexer (`parseCSVLine`/`parseCSVContent`), the synonym-ranked
column matcher (`findBestColumnMatch`) and the row-merging loop are
embedded below. JS `trim` is embedded as the structural `jsTrim` (they
agree on ASCII whitespace). -/

/-- The character loop of `parseCSVLine` (fileUtils.ts lines 47–81):
RFC4180-style quoted fields, a doubled quote inside quotes is a literal
quote, fields are trimmed as they are pushed. -/
def parseCSVLineAux : List Char → Bool → List Char → List String
  | [], _, cur => [jsTrim ⟨cur⟩]
  | '"' :: '"' :: rest, true, cur => parseCSVLineAux rest true (cur ++ ['"'])
  | '"' :: rest, inQuotes, cur => parseCSVLineAux rest (!inQuotes) cur
  | ',' :: rest, false, cur => jsTrim ⟨cur⟩ :: parseCSVLineAux rest false []
  | c :: rest, inQuotes, cur => parseCSVLineAux rest inQuotes (cur ++ [c])

/-- `parseCSVLine` of the source. -/
def parseCSVLine (line : String) : List String := parseCSVLineAux line.data false []

/-- Split on the JS regex `/\r?\n/`: a newline optionally preceded by a
carriage return; a carriage return not followed by a newline stays. -/
def splitLinesJS : List Char → List Char → List String
  | [], cur => [⟨cur⟩]
  | '\n' :: rest, cur =>
    (⟨if cur.getLast? == some '\r' then cur.dropLast else cur⟩ : String) ::
      splitLinesJS rest []
  | c :: rest, cur => splitLinesJS rest (cur ++ [c])

/-- `parseCSVContent` (fileUtils.ts lines 84–103): split into lines, trim,
skip blank lines, lex each remaining line. -/
def parseCSVContent (content : String) : List (List String) :=
  (splitLinesJS content.data []).filterMap fun line =>
    let t := jsTrim line
    if t = "" then none else some (parseCSVLine t)

/-- Strip one leading and one trailing quote character, the JS global
regex replace `^["']|["']$` → empty. -/
def stripQuotesOnce (s : String) : String :=
  let l := s.data
  let l1 := match l with
    | c :: rest => if c == '"' || c == '\'' then rest else l
    | [] => []
  let l2 := match l1.getLast? with
    | some c => if c == '"' || c == '\'' then l1.dropLast else l1
    | none => l1
  ⟨l2⟩

/-- `cleanAndSplitDiagramNames` (fileUtils.ts lines 106–140): pick the
first separator found among comma/semicolon/pipe, split, trim, strip
quotes, drop characters outside `\w`, whitespace, hyphen and dot, and
keep the non-empty results. -/
def cleanAndSplitDiagramNames (diagramString : String) : List String :=
  if diagramString = "" then [] else
  let separator :=
    if containsStr diagramString "," then ','
    else if containsStr diagramString ";" then ';'
    else if containsStr diagramString "|" then '|'
    else ','
  ((splitOnCharL separator diagramString.data).map fun nm =>
    let cleaned := jsTrim ⟨nm⟩
    let cleaned := stripQuotesOnce cleaned
    let cleaned := jsTrim cleaned
    (⟨cleaned.data.filter fun c => isWordC c || jsSpace c || c == '-' || c == '.'⟩ :
      String)).filter
    fun name => name.length > 0

/-- Header normalization of `findBestColumnMatch`: lower-case and strip
everything outside `[a-z0-9]`. -/
def normalizeCol (s : String) : String := ⟨(lowerL s.data).filter isLowerAlnumC⟩

/-- `findBestColumnMatch` (fileUtils.ts lines 143–184): exact normalized
match, then normalized mutual containment, then lower-cased mutual
containment over the raw headers; `none` embeds the source's `-1`. -/
def findBestColumnMatch (headers : List String) (possibleNames : List String) :
    Option Nat :=
  let normalizedHeaders := headers.map normalizeCol
  match possibleNames.findSome? (fun name =>
      normalizedHeaders.findIdx? (fun h => h == normalizeCol name)) with
  | some i => some i
  | none =>
    match possibleNames.findSome? (fun name =>
        let nn := normalizeCol name
        normalizedHeaders.findIdx? (fun h => containsStr h nn || containsStr nn h)) with
    | some i => some i
    | none =>
      headers.findIdx? fun h =>
        possibleNames.any fun name =>
          containsStr (strLower h) (strLower name) ||
          containsStr (strLower name) (strLower h)

/-- The ranked synonym list for the function-id column (fileUtils.ts 201). -/
def possibleFnIdColumns : List String :=
  ["functional requirement", "requirement id", "req id", "req_id", "requirementid",
   "id", "requirement", "function", "functional", "fr"]

/-- The ranked synonym list for the function-name column (fileUtils.ts 202). -/
def possibleFnNameColumns : List String :=
  ["functional requirement", "system function", "function", "function name",
   "systemfunction", "name", "description", "functional"]

/-- The ranked synonym list for the sequence-diagram column (fileUtils.ts 203). -/
def possibleSeqDiagramColumns : List String :=
  ["sequence", "sequencediagram", "sequence diagram", "seq diagram", "diagram", "sd"]

/-- The ranked synonym list for the related-diagram column (fileUtils.ts 204). -/
def possibleRelatedSeqDiagramColumns : List String :=
  ["related sequence diagram", "related diagram", "relateddiagram",
   "additional diagrams"]

/-- The effective id/name column indices (fileUtils.ts lines 207–226):
when exactly one of the two columns resolves, it is used for both roles. -/
def effectiveIndexes (header : List String) : Option Nat × Option Nat :=
  let fnIdIndex := findBestColumnMatch header possibleFnIdColumns
  let fnNameIndex := findBestColumnMatch header possibleFnNameColumns
  match fnIdIndex, fnNameIndex with
  | none, some j => (some j, some j)
  | some i, none => (some i, some i)
  | p, q => (p, q)

/-- Read a cell under an optional column index, trimmed; out-of-range or
unresolved columns yield the empty string (fileUtils.ts lines 252–258). -/
def extractField (idx : Option Nat) (columns : List String) : String :=
  match idx with
  | some k => if k < columns.length then jsTrim (columns.getD k "") else ""
  | none => ""

/-- The diagram names listed in one row, before any de-duplication: the
primary sequence-diagram cell followed by the related-diagram cell
(fileUtils.ts lines 279–292). -/
def rowDiagramsRaw (seqIdx relIdx : Option Nat) (columns : List String) : List String :=
  (match seqIdx with
   | some k =>
     if k < columns.length then
       if columns.getD k "" ≠ "" then cleanAndSplitDiagramNames (columns.getD k "")
       else []
     else []
   | none => []) ++
  (match relIdx with
   | some k =>
     if k < columns.length then
       if columns.getD k "" ≠ "" then cleanAndSplitDiagramNames (columns.getD k "")
       else []
     else []
   | none => [])

/-- Merge freshly listed diagram names into the first function carrying
the id (the in-place `existingFunction.sequenceDiagramNames` update,
fileUtils.ts lines 300–305). -/
def mergeIntoFirst : List SystemFunction → String → List String → List SystemFunction
  | [], _, _ => []
  | f :: rest, functionId, allDiagrams =>
    if f.id == functionId then
      { f with sequenceDiagramNames := dedupKF (f.sequenceDiagramNames ++ allDiagrams) }
        :: rest
    else f :: mergeIntoFirst rest functionId allDiagrams

/-- The id/name fallback chain of one data row (fileUtils.ts lines
249–271): an empty id falls back to the name, an empty name to the id,
and when both cells are empty the first column serves for both. -/
def rowIdName (effId effName : Option Nat) (columns : List String) : String × String :=
  if extractField effId columns = "" ∧ extractField effName columns = "" then
    (jsTrim (columns.getD 0 ""), jsTrim (columns.getD 0 ""))
  else if extractField effId columns = "" then
    (extractField effName columns, extractField effName columns)
  else if extractField effName columns = "" then
    (extractField effId columns, extractField effId columns)
  else (extractField effId columns, extractField effName columns)

/-- Process one data row (the loop body of fileUtils.ts lines 243–313):
resolve id and name with the fallback chain, skip rows with no usable
values, de-duplicate the row's diagram names, and merge or append. -/
def processRow (effId effName seqIdx relIdx : Option Nat)
    (funcs : List SystemFunction) (columns : List String) : List SystemFunction :=
  if columns.length = 0 then funcs
  else if (rowIdName effId effName columns).1 = "" ∨
      (rowIdName effId effName columns).2 = "" then funcs
  else if funcs.any (fun f => f.id == (rowIdName effId effName columns).1) then
    mergeIntoFirst funcs (rowIdName effId effName columns).1
      (dedupKF (rowDiagramsRaw seqIdx relIdx columns))
  else
    funcs ++ [⟨(rowIdName effId effName columns).1, (rowIdName effId effName columns).2,
      dedupKF (rowDiagramsRaw seqIdx relIdx columns)⟩]

/-- The row-processing phase of `processRTMFile` on the parsed CSV matrix
(fileUtils.ts lines 192–323): fewer than two rows or no resolvable
id/name column yields the empty list. -/
def processRTMRows : List (List String) → List SystemFunction
  | [] => []
  | [_] => []
  | header :: dataRows =>
    if (effectiveIndexes header).1 = none ∧ (effectiveIndexes header).2 = none then []
    else
      dataRows.foldl
        (processRow (effectiveIndexes header).1 (effectiveIndexes header).2
          (findBestColumnMatch header possibleSeqDiagramColumns)
          (findBestColumnMatch header possibleRelatedSeqDiagramColumns)) []

/-- `processRTMFile` on raw CSV text. -/
def processRTMFile (content : String) : List SystemFunction :=
  processRTMRows (parseCSVContent content)



/-! ## One function per id, diagram-name union (the RTM merge invariant) -/

/-- The id value a data row contributes under the resolved id column. -/
def idOf (i : Nat) (row : List String) : String := jsTrim (row.getD i "")

theorem any_id_iff_mem_map {l : List SystemFunction} {x : String} :
    l.any (fun f => f.id == x) = true ↔ x ∈ l.map (fun f => f.id) := by
  simp only [List.any_eq_true, beq_iff_eq, List.mem_map]

theorem mergeIntoFirst_map_id (fid : String) (allD : List String) :
    ∀ l : List SystemFunction,
      (mergeIntoFirst l fid allD).map (fun f => f.id) = l.map (fun f => f.id)
  | [] => rfl
  | f :: rest => by
    unfold mergeIntoFirst
    by_cases h : (f.id == fid) = true
    · rw [if_pos h]
      rfl
    · rw [if_neg h]
      simp only [List.map_cons]
      rw [mergeIntoFirst_map_id fid allD rest]

theorem mergeIntoFirst_mem {fid : String} {allD : List String} :
    ∀ {l : List SystemFunction}, (l.map (fun f => f.id)).Nodup →
      ∀ f' ∈ mergeIntoFirst l fid allD,
        (f' ∈ l ∧ f'.id ≠ fid) ∨
        (∃ f0 ∈ l, f0.id = fid ∧ f' = { f0 with sequenceDiagramNames := dedupKF (f0.sequenceDiagramNames ++ allD) }) := by
  intro l
  induction l with
  | nil => intro _ f' hf'; cases hf'
  | cons f rest ih =>
    intro hnd f' hf'
    have hnd' : (rest.map (fun f => f.id)).Nodup := (List.nodup_cons.1 hnd).2
    have hfid_not : f.id ∉ rest.map (fun f => f.id) := (List.nodup_cons.1 hnd).1
    unfold mergeIntoFirst at hf'
    by_cases h : (f.id == fid) = true
    · rw [if_pos h] at hf'
      have hfe : f.id = fid := by simpa using h
      rcases List.mem_cons.1 hf' with rfl | hmem
      · exact Or.inr ⟨f, List.mem_cons_self _ _, hfe, rfl⟩
      · have hne : f'.id ≠ fid := by
          intro hEq
          apply hfid_not
          rw [hfe, ← hEq]
          exact List.mem_map.2 ⟨f', hmem, rfl⟩
        exact Or.inl ⟨List.mem_cons_of_mem _ hmem, hne⟩
    · rw [if_neg h] at hf'
      rcases List.mem_cons.1 hf' with rfl | hmem
      · have hne : f'.id ≠ fid := by simpa using h
        exact Or.inl ⟨List.mem_cons_self _ _, hne⟩
      · rcases ih hnd' f' hmem with ⟨hmem2, hne⟩ | ⟨f0, hf0, hfe, rfl⟩
        · exact Or.inl ⟨List.mem_cons_of_mem _ hmem2, hne⟩
        · exact Or.inr ⟨f0, List.mem_cons_of_mem _ hf0, hfe, rfl⟩

theorem filter_beq_eq_nil {x : String} {i : Nat} :
    ∀ {l : List (List String)}, x ∉ l.map (idOf i) →
      l.filter (fun row => idOf i row == x) = []
  | [], _ => rfl
  | row :: rest, h => by
    have h1 : (idOf i row == x) = false := by
      simp only [beq_eq_false_iff_ne]
      intro hEq
      exact h (List.mem_map.2 ⟨row, List.mem_cons_self _ _, hEq⟩)
    simp only [List.filter_cons, h1, Bool.false_eq_true, if_false]
    exact filter_beq_eq_nil fun hm => h (by
      rcases List.mem_map.1 hm with ⟨r, hr, hre⟩
      exact List.mem_map.2 ⟨r, List.mem_cons_of_mem _ hr, hre⟩)

/-- The two-part invariant of the row fold: the ids of the accumulated
functions are the first-occurrence de-duplication of the row ids, and
every accumulated function's diagram list is the de-duplicated
concatenation of the diagram names of its rows. -/
theorem processRows_invariant (i : Nat) (effName seqIdx relIdx : Option Nat) :
    ∀ (rows : List (List String)) (acc : List SystemFunction) (R : List (List String)),
      acc.map (fun f => f.id) = dedupKF (R.map (idOf i)) →
      (∀ f ∈ acc, f.sequenceDiagramNames =
        dedupKF ((R.filter (fun row => idOf i row == f.id)).flatMap
          (rowDiagramsRaw seqIdx relIdx))) →
      (∀ row ∈ rows, i < row.length ∧ idOf i row ≠ "") →
      ((rows.foldl (processRow (some i) effName seqIdx relIdx) acc).map
          (fun f => f.id) = dedupKF ((R ++ rows).map (idOf i))) ∧
      (∀ f ∈ rows.foldl (processRow (some i) effName seqIdx relIdx) acc,
        f.sequenceDiagramNames =
          dedupKF (((R ++ rows).filter (fun row => idOf i row == f.id)).flatMap
            (rowDiagramsRaw seqIdx relIdx))) := by
  intro rows
  induction rows with
  | nil =>
    intro acc R h1 h2 _
    simp only [List.foldl_nil, List.append_nil]
    exact ⟨h1, h2⟩
  | cons row rows' ih =>
    intro acc R h1 h2 hrows
    obtain ⟨hlen, hid⟩ := hrows row (List.mem_cons_self _ _)
    have hrows' : ∀ r ∈ rows', i < r.length ∧ idOf i r ≠ "" := fun r hr =>
      hrows r (List.mem_cons_of_mem _ hr)
    have hlen0 : ¬ row.length = 0 := by omega
    have hfld : extractField (some i) row = idOf i row := by
      simp only [extractField, idOf, if_pos hlen]
    -- the id/name pair the row resolves to
    have hpair1 : (rowIdName (some i) effName row).1 = idOf i row := by
      unfold rowIdName
      rw [hfld]
      have hc1 : ¬ (idOf i row = "" ∧ extractField effName row = "") := fun h => hid h.1
      rw [if_neg hc1, if_neg hid]
      by_cases hn : extractField effName row = ""
      · rw [if_pos hn]
      · rw [if_neg hn]
    have hpair2ne : (rowIdName (some i) effName row).2 ≠ "" := by
      unfold rowIdName
      rw [hfld]
      have hc1 : ¬ (idOf i row = "" ∧ extractField effName row = "") := fun h => hid h.1
      rw [if_neg hc1, if_neg hid]
      by_cases hn : extractField effName row = ""
      · rw [if_pos hn]; exact hid
      · rw [if_neg hn]; exact hn
    have hskip : ¬ ((rowIdName (some i) effName row).1 = "" ∨
        (rowIdName (some i) effName row).2 = "") := by
      rintro (h | h)
      · rw [hpair1] at h; exact hid h
      · exact hpair2ne h
    simp only [List.foldl_cons]
    unfold processRow
    rw [if_neg hlen0, if_neg hskip, hpair1]
    by_cases hfound : acc.any (fun f => f.id == idOf i row) = true
    · rw [if_pos hfound]
      have hmem_fid : idOf i row ∈ R.map (idOf i) := by
        have hmem := any_id_iff_mem_map.1 hfound
        rw [h1, mem_dedupKF] at hmem
        exact hmem
      have hnd : (acc.map (fun f => f.id)).Nodup := by
        rw [h1]; exact nodup_dedupKF _
      have h1' : (mergeIntoFirst acc (idOf i row)
            (dedupKF (rowDiagramsRaw seqIdx relIdx row))).map (fun f => f.id) =
          dedupKF ((R ++ [row]).map (idOf i)) := by
        rw [mergeIntoFirst_map_id, h1, List.map_append, List.map_singleton,
          dedupKF_append_singleton_mem hmem_fid]
      have h2' : ∀ f ∈ mergeIntoFirst acc (idOf i row)
            (dedupKF (rowDiagramsRaw seqIdx relIdx row)),
          f.sequenceDiagramNames =
            dedupKF (((R ++ [row]).filter (fun r => idOf i r == f.id)).flatMap
              (rowDiagramsRaw seqIdx relIdx)) := by
        intro f' hf'
        rcases mergeIntoFirst_mem hnd f' hf' with ⟨hmem, hne⟩ | ⟨f0, hf0, hfe, rfl⟩
        · have hflt : (idOf i row == f'.id) = false := by
            simp only [beq_eq_false_iff_ne]
            exact fun hEq => hne hEq.symm
          rw [List.filter_append]
          have hnil : List.filter (fun r => idOf i r == f'.id) [row] = [] := by
            simp [hflt]
          rw [hnil, List.append_nil]
          exact h2 f' hmem
        · have hflt : (idOf i row == f0.id) = true := by
            simp [hfe]
          rw [List.filter_append]
          have hsing : List.filter (fun r => idOf i r == f0.id) [row] = [row] := by
            simp [hflt]
          show dedupKF (f0.sequenceDiagramNames ++
            dedupKF (rowDiagramsRaw seqIdx relIdx row)) = _
          rw [hsing, List.flatMap_append]
          simp only [List.flatMap_cons, List.flatMap_nil, List.append_nil]
          rw [h2 f0 hf0]
          rw [dedupKF_dedupKF_append, dedupKF_append_dedupKF]
      have hres := ih (mergeIntoFirst acc (idOf i row)
          (dedupKF (rowDiagramsRaw seqIdx relIdx row))) (R ++ [row]) h1' h2' hrows'
      rwa [List.append_assoc, List.singleton_append] at hres
    · rw [if_neg hfound]
      have hnot_mem : idOf i row ∉ R.map (idOf i) := by
        intro hmem
        exact hfound (any_id_iff_mem_map.2 (by rwa [h1, mem_dedupKF]))
      have h1' : ((acc ++ [(⟨idOf i row, (rowIdName (some i) effName row).2,
            dedupKF (rowDiagramsRaw seqIdx relIdx row)⟩ : SystemFunction)]).map (fun f => f.id)) =
          dedupKF ((R ++ [row]).map (idOf i)) := by
        rw [List.map_append, h1, List.map_append, List.map_singleton,
          List.map_singleton, dedupKF_append_singleton_not_mem hnot_mem]
      have h2' : ∀ f ∈ acc ++ [(⟨idOf i row, (rowIdName (some i) effName row).2,
            dedupKF (rowDiagramsRaw seqIdx relIdx row)⟩ : SystemFunction)],
          f.sequenceDiagramNames =
            dedupKF (((R ++ [row]).filter (fun r => idOf i r == f.id)).flatMap
              (rowDiagramsRaw seqIdx relIdx)) := by
        intro f' hf'
        rcases List.mem_append.1 hf' with hmem | hnew
        · have hne : f'.id ≠ idOf i row := by
            intro hEq
            apply hnot_mem
            rw [← hEq, ← mem_dedupKF, ← h1]
            exact List.mem_map.2 ⟨f', hmem, rfl⟩
          have hflt : (idOf i row == f'.id) = false := by
            simp only [beq_eq_false_iff_ne]
            exact fun hEq => hne hEq.symm
          rw [List.filter_append]
          have hnil : List.filter (fun r => idOf i r == f'.id) [row] = [] := by
            simp [hflt]
          rw [hnil, List.append_nil]
          exact h2 f' hmem
        · rcases List.mem_singleton.1 hnew with rfl
          show dedupKF (rowDiagramsRaw seqIdx relIdx row) = _
          have hfR : R.filter (fun r => idOf i r ==
              (⟨idOf i row, (rowIdName (some i) effName row).2,
                dedupKF (rowDiagramsRaw seqIdx relIdx row)⟩ : SystemFunction).id) = [] :=
            filter_beq_eq_nil hnot_mem
          rw [List.filter_append, hfR, List.nil_append]
          have hsing : List.filter (fun r => idOf i r ==
              (⟨idOf i row, (rowIdName (some i) effName row).2,
                dedupKF (rowDiagramsRaw seqIdx relIdx row)⟩ : SystemFunction).id) [row] =
              [row] := by
            simp
          rw [hsing]
          simp only [List.flatMap_cons, List.flatMap_nil, List.append_nil]
      have hres := ih (acc ++ [(⟨idOf i row, (rowIdName (some i) effName row).2,
          dedupKF (rowDiagramsRaw seqIdx relIdx row)⟩ : SystemFunction)]) (R ++ [row]) h1' h2' hrows'
      rwa [List.append_assoc, List.singleton_append] at hres


theorem processRTMRows_nil : processRTMRows [] = [] := by
  rw [processRTMRows]

theorem processRTMRows_single (header : List String) : processRTMRows [header] = [] := by
  rw [processRTMRows]

theorem processRTMRows_cons (header r : List String) (rest : List (List String)) :
    processRTMRows (header :: r :: rest) =
      (if (effectiveIndexes header).1 = none ∧ (effectiveIndexes header).2 = none then []
       else
        (r :: rest).foldl
          (processRow (effectiveIndexes header).1 (effectiveIndexes header).2
            (findBestColumnMatch header possibleSeqDiagramColumns)
            (findBestColumnMatch header possibleRelatedSeqDiagramColumns)) []) := by
  rw [processRTMRows]
  exact fun h => List.noConfusion h

theorem effectiveIndexes_both {header : List String} {i j : Nat}
    (hi : findBestColumnMatch header possibleFnIdColumns = some i)
    (hj : findBestColumnMatch header possibleFnNameColumns = some j) :
    effectiveIndexes header = (some i, some j) := by
  unfold effectiveIndexes
  rw [hi, hj]

theorem effectiveIndexes_id_only {header : List String} {i : Nat}
    (hi : findBestColumnMatch header possibleFnIdColumns = some i)
    (hj : findBestColumnMatch header possibleFnNameColumns = none) :
    effectiveIndexes header = (some i, some i) := by
  unfold effectiveIndexes
  rw [hi, hj]

theorem effectiveIndexes_name_only {header : List String} {j : Nat}
    (hi : findBestColumnMatch header possibleFnIdColumns = none)
    (hj : findBestColumnMatch header possibleFnNameColumns = some j) :
    effectiveIndexes header = (some j, some j) := by
  unfold effectiveIndexes
  rw [hi, hj]

theorem effectiveIndexes_none {header : List String}
    (hi : findBestColumnMatch header possibleFnIdColumns = none)
    (hj : findBestColumnMatch header possibleFnNameColumns = none) :
    effectiveIndexes header = (none, none) := by
  unfold effectiveIndexes
  rw [hi, hj]

/-- With the same column playing both roles, the resolved id and name of
any row coincide. -/
theorem rowIdName_same (k : Option Nat) (columns : List String) :
    (rowIdName k k columns).1 = (rowIdName k k columns).2 := by
  unfold rowIdName
  split_ifs <;> rfl

theorem mergeIntoFirst_id_eq_name {fid : String} {allD : List String} :
    ∀ {l : List SystemFunction}, (∀ f ∈ l, f.id = f.name) →
      ∀ f' ∈ mergeIntoFirst l fid allD, f'.id = f'.name := by
  intro l
  induction l with
  | nil => intro _ f' hf'; cases hf'
  | cons f rest ih =>
    intro hp f' hf'
    unfold mergeIntoFirst at hf'
    by_cases h : (f.id == fid) = true
    · rw [if_pos h] at hf'
      rcases List.mem_cons.1 hf' with rfl | hmem
      · exact hp f (List.mem_cons_self _ _)
      · exact hp f' (List.mem_cons_of_mem _ hmem)
    · rw [if_neg h] at hf'
      rcases List.mem_cons.1 hf' with rfl | hmem
      · exact hp f' (List.mem_cons_self _ _)
      · exact ih (fun f0 h0 => hp f0 (List.mem_cons_of_mem _ h0)) f' hmem

/-- When one column serves both roles, every produced function has equal
id and name. -/
theorem processRows_id_eq_name (k seqIdx relIdx : Option Nat) :
    ∀ (rows : List (List String)) (acc : List SystemFunction),
      (∀ f ∈ acc, f.id = f.name) →
      ∀ f ∈ rows.foldl (processRow k k seqIdx relIdx) acc, f.id = f.name := by
  intro rows
  induction rows with
  | nil => intro acc hacc f hf; exact hacc f hf
  | cons row rows' ih =>
    intro acc hacc
    simp only [List.foldl_cons]
    refine ih (processRow k k seqIdx relIdx acc row) ?_
    intro f hf
    unfold processRow at hf
    by_cases h0 : row.length = 0
    · rw [if_pos h0] at hf; exact hacc f hf
    · rw [if_neg h0] at hf
      by_cases h1 : ((rowIdName k k row).1 = "" ∨ (rowIdName k k row).2 = "")
      · rw [if_pos h1] at hf; exact hacc f hf
      · rw [if_neg h1] at hf
        by_cases h2 : acc.any (fun f => f.id == (rowIdName k k row).1) = true
        · rw [if_pos h2] at hf
          exact mergeIntoFirst_id_eq_name hacc f hf
        · rw [if_neg h2] at hf
          rcases List.mem_append.1 hf with hmem | hnew
          · exact hacc f hmem
          · rcases List.mem_singleton.1 hnew with rfl
            exact rowIdName_same k row

/-! ## Name Resolution / Fuzzy Matcher
(`enhanceRefNameMatching`, fileUtils.ts lines 332–358, and
`findMatchingDiagram`, lines 361–395)

The candidate-variant generator can throw: for a label that is nothing but
a recognized prefix token, the prefix-stripped base is empty and
`base[0].toUpperCase()` raises a `TypeError`. The embedding returns
`Except.error ()` in that case. -/

/-- Case-insensitive prefix test against a lower-case pattern. -/
def ciPrefix (pat : String) (s : List Char) : Bool := isPrefixL pat.data (lowerL s)

/-- One leading token of the regex alternation
`(?:ref|sd|seq|sequence|diagram)`, in the alternation's order (so the
`sequence` alternative is shadowed by `seq`, as in the source regex). -/
def refTokenLength (s : List Char) : Nat :=
  if ciPrefix "ref" s then 3
  else if ciPrefix "sd" s then 2
  else if ciPrefix "seq" s then 3
  else if ciPrefix "sequence" s then 8
  else if ciPrefix "diagram" s then 7
  else 0

/-- Greedy repetition of leading tokens (the `+` of the regex); the fuel
argument (instantiated with the string length) bounds the loop and is
always sufficient since every token is non-empty. -/
def dropRefTokens : Nat → List Char → List Char
  | 0, s => s
  | fuel + 1, s =>
    if refTokenLength s = 0 then s else dropRefTokens fuel (s.drop (refTokenLength s))

/-- The replace of `/^(?:ref|sd|seq|sequence|diagram)+\s*/i` by the empty
string: when at least one token matches at the start, strip the greedy
token run and any following whitespace; otherwise leave the string as is. -/
def stripRefPrefix (s : List Char) : List Char :=
  if refTokenLength s = 0 then s
  else (dropRefTokens s.length s).dropWhile jsSpace

/-- The global camelCase replace `([a-z])([A-Z])` → `$1 $2`: insert a
space between each lower-case/upper-case pair, scanning left to right. -/
def camelExpand : List Char → List Char
  | a :: b :: rest =>
    if isLowerC a && isUpperC b then a :: ' ' :: b :: camelExpand rest
    else a :: camelExpand (b :: rest)
  | l => l

/-- `variations.add(s.trim()).add(s.trim().toLowerCase())` on the
insertion-ordered set. -/
def addVariation (acc : List String) (s : String) : List String :=
  insertUnique (insertUnique acc (jsTrim s)) (strLower (jsTrim s))

/-- `enhanceRefNameMatching` (fileUtils.ts lines 332–358). An empty label
yields no variations; a label whose prefix-stripped base is empty throws
(`base[0]` is `undefined`); otherwise the variant list is returned in
insertion order. -/
def enhanceRefNameMatching (refName : String) : Except Unit (List String) :=
  if jsTrim refName = "" then Except.ok [] else
  match hbase : (stripRefPrefix (jsTrim refName).data) with
  | [] =>
    -- base[0].toUpperCase() on the empty base: TypeError
    Except.error ()
  | c :: restBase =>
    let base : String := ⟨c :: restBase⟩
    let underscored : String := ⟨(c :: restBase).map
      (fun ch => if ch == '_' || ch == '-' then ' ' else ch)⟩
    let cap : String := ⟨upperC c :: restBase⟩
    Except.ok
      (addVariation
        (addVariation
          (addVariation
            (addVariation
              (addVariation
                (addVariation
                  (addVariation [] base)
                  ⟨camelExpand base.data⟩)
                underscored)
              cap)
            ⟨camelExpand cap.data⟩)
          (base ++ "Diagram"))
        (base ++ " Diagram"))

/-- `findMatchingDiagram` (fileUtils.ts lines 361–395) over the diagram
map embedded as an insertion-ordered association list: exact key match on
any variation, then case-insensitive equality, then mutual substring
containment. -/
def findMatchingDiagram (refName : String)
    (diagrams : List (String × SequenceDiagram)) :
    Except Unit (Option SequenceDiagram) := do
  let variations ← enhanceRefNameMatching refName
  match variations.findSome? (fun variation =>
      (diagrams.find? (fun kv => kv.1 == variation)).map (fun kv => kv.2)) with
  | some d => pure (some d)
  | none =>
    match variations.findSome? (fun variation =>
        (diagrams.find? (fun kv => strLower kv.1 == strLower variation)).map
          (fun kv => kv.2)) with
    | some d => pure (some d)
    | none =>
      match variations.findSome? (fun variation =>
          (diagrams.find? (fun kv =>
            containsStr (strLower kv.1) (strLower variation) ||
            containsStr (strLower variation) (strLower kv.1))).map (fun kv => kv.2)) with
      | some d => pure (some d)
      | none => pure none

/-! ## The REF-occurrence stage of the sequence-diagram parser
(fileUtils.ts lines 595–683)

The DOM lookups of resolution methods 1–3 (TransitFrom operation,
CoveredInteraction, message-operation scan) are modelled by the
`resolvedDiagramName` field of the occurrence model; method 4 (parsing the
REF label itself through `enhanceRefNameMatching`) is embedded in full,
including its ability to throw. The enclosing `try`/`catch` of
`processSequenceDiagramFile` (lines 740–744) turns a thrown `TypeError`
into a `null` result for the whole file. -/

/-- One `InteractionOccurrence` model: its `Name` attribute and the
best-effort diagram name produced by resolution methods 1–3 (DOM-bound,
hence an input of the model). -/
structure OccurrenceModel where
  name : String
  resolvedDiagramName : Option String
deriving DecidableEq, Repr

/-- Build the `Reference` of one occurrence (the loop body of fileUtils.ts
lines 595–683); `idx` feeds the `Ref<i>` default name. -/
def referenceOfOccurrence (idx : Nat) (occ : OccurrenceModel) : Except Unit Reference :=
  let refName := if occ.name = "" then "Ref" ++ toString idx else occ.name
  match occ.resolvedDiagramName with
  | some dn => Except.ok ⟨"", refName, some dn⟩
  | none => do
    let variations ← enhanceRefNameMatching refName
    Except.ok ⟨"", refName, variations.head?⟩

/-- The reference-extraction loop over all occurrence models. -/
def extractReferences : Nat → List OccurrenceModel → Except Unit (List Reference)
  | _, [] => Except.ok []
  | i, occ :: rest => do
    let r ← referenceOfOccurrence i occ
    let rs ← extractReferences (i + 1) rest
    Except.ok (r :: rs)

/-- The reference stage of `processSequenceDiagramFile` with the
function's catch-all: a throw anywhere rejects the whole file (`none`). -/
def processSequenceDiagramRefs (occs : List OccurrenceModel) : Option (List Reference) :=
  (extractReferences 0 occs).toOption

/-! ## Upload validation and the diagram name
(`validateFileExtension`, fileUtils.ts lines 21–34, and the name
derivation of `processSequenceDiagramFile`, line 422) -/

/-- The three upload slots (`FileType` in the source). -/
inductive FileType where
  | rtm
  | sequenceDiagram
  | classDiagram
deriving DecidableEq, Repr

/-- `validateFileExtension` (fileUtils.ts lines 21–34): the check is on
the lower-cased file name. -/
def validateFileExtension (fileName : String) (expectedType : FileType) : Bool :=
  match expectedType with
  | .rtm => endsWithStr (strLower fileName) ".csv"
  | .sequenceDiagram => endsWithStr (strLower fileName) ".xml"
  | .classDiagram => endsWithStr (strLower fileName) ".xml"

/-- JS `fileName.replace(".xml", "")`: remove the first (leftmost)
occurrence of the literal, case-sensitive substring. -/
def replaceFirstXml : List Char → List Char
  | [] => []
  | c :: rest =>
    if isPrefixL ".xml".data (c :: rest) then rest.drop 3
    else c :: replaceFirstXml rest

/-- The diagram name of an uploaded sequence-diagram file
(`file.name.replace('.xml', '')`, fileUtils.ts line 422). -/
def seqDiagramNameOfFile (fileName : String) : String := ⟨replaceFirstXml fileName.data⟩

/-- Modelled from the spec: the file name with its extension stripped,
i.e. everything before the last dot (the name unchanged when it has no
dot). Used to compare the implementation against the specified name. -/
def stripExtensionSpec (s : String) : String :=
  if s.data.contains '.' then
    ⟨((s.data.reverse.dropWhile (fun c => c != '.')).drop 1).reverse⟩
  else s

/-- The substring `.xml` occurs nowhere before the final extension of
`stem ++ ".xml"`. -/
def xmlOnlyAtEnd (stem : String) : Bool :=
  (List.range stem.data.length).all fun i =>
    !(isPrefixL ".xml".data ((stem.data ++ ".xml".data).drop i))

theorem replaceFirstXml_append (s : List Char)
    (h : ∀ i < s.length, isPrefixL ".xml".data ((s ++ ".xml".data).drop i) = false) :
    replaceFirstXml (s ++ ".xml".data) = s := by
  induction s with
  | nil => rfl
  | cons c s' ih =>
    have h0 := h 0 (Nat.succ_pos _)
    simp only [List.drop_zero] at h0
    rw [List.cons_append, replaceFirstXml]
    rw [List.cons_append] at h0
    rw [if_neg (by rw [h0]; exact fun hc => Bool.noConfusion hc)]
    rw [ih fun i hi => by
      have := h (i + 1) (Nat.succ_lt_succ hi)
      simpa using this]

/-! ## Class Diagram Parser (`processClassDiagramFile`,
fileUtils.ts lines 748–1032)

The XML walk that extracts each class element's name attribute, enclosing
package and operation list is DOM-bound; its per-element output is the
`RawClassElem` input of the model. The name filter, the composite-key
de-duplication with method merging, and the final by-name de-duplication
are embedded in full. -/

/-- One `Class` element of the vendor XML after attribute extraction. -/
structure RawClassElem where
  nameAttr : Option String
  packageName : String
  methods : List MethodInfo
deriving DecidableEq, Repr

/-- `classElement.getAttribute('Name') || 'Class<i>'`: an absent or empty
attribute falls back to the indexed placeholder. -/
def effectiveClassName (i : Nat) (e : RawClassElem) : String :=
  match e.nameAttr with
  | none => "Class" ++ toString i
  | some "" => "Class" ++ toString i
  | some n => n

/-- The skip condition of fileUtils.ts line 791: empty, blank, literal
`Class`, or any name starting with `Class`. -/
def invalidClassName (name : String) : Bool :=
  name == "" || jsTrim name == "" || name == "Class" || startsWithStr name "Class"

/-- The method-merge key: name plus parameter types. -/
def methodSignature (m : MethodInfo) : String :=
  m.name ++ "(" ++ String.intercalate "," (m.parameters.map (fun p => p.type)) ++ ")"

/-- `Map.set` on an insertion-ordered association list: replace in place
or append. -/
def mapSet (mm : List (String × MethodInfo)) (k : String) (v : MethodInfo) :
    List (String × MethodInfo) :=
  if mm.any (fun kv => kv.1 == k) then
    mm.map (fun kv => if kv.1 == k then (k, v) else kv)
  else mm ++ [(k, v)]

/-- The duplicate-key method merge (fileUtils.ts lines 900–924): existing
methods first, then each new method replaces the entry of its signature
when it is more complete (more parameters, or a non-void return type
against a void one). -/
def mergeMethods (existingMethods newMethods : List MethodInfo) : List MethodInfo :=
  ((newMethods.foldl
    (fun mm m =>
      match mm.find? (fun kv => kv.1 == methodSignature m) with
      | none => mapSet mm (methodSignature m) m
      | some kv =>
        if m.parameters.length > kv.2.parameters.length ||
            (m.returnType != "void" && kv.2.returnType == "void") then
          mapSet mm (methodSignature m) m
        else mm)
    (existingMethods.foldl (fun mm m => mapSet mm (methodSignature m) m) []))).map
    (fun kv => kv.2)

/-- The first pass of `processClassDiagramFile` (lines 785–942): filter
invalid names, key by `normalizedPackage::name`, merge duplicate keys,
and keep only substantial new entries. -/
def buildClassesMap : Nat → List RawClassElem → List (String × ClassInfo) →
    List (String × ClassInfo)
  | _, [], acc => acc
  | i, e :: rest, acc =>
    if invalidClassName (effectiveClassName i e) then buildClassesMap (i + 1) rest acc
    else
      match acc.find? (fun kv => kv.1 ==
          ((if e.packageName == "default" then "" else e.packageName) ++ "::" ++
            effectiveClassName i e)) with
      | some kv =>
        buildClassesMap (i + 1) rest
          (acc.map fun kv' =>
            if kv'.1 == kv.1 then
              (kv.1, { kv.2 with methods := mergeMethods kv.2.methods e.methods })
            else kv')
      | none =>
        if e.methods.length > 0 || e.packageName != "default" then
          buildClassesMap (i + 1) rest
            (acc ++ [(((if e.packageName == "default" then "" else e.packageName) ++
                "::" ++ effectiveClassName i e),
              ⟨"", effectiveClassName i e, e.packageName, e.methods, []⟩)])
        else buildClassesMap (i + 1) rest acc

/-- Append the methods of `ci` whose signature is new to `ex` (the
`bestExisting.methods.push` loop of fileUtils.ts lines 991–1004); the
signature set is computed once, before the loop, as in the source. -/
def mergeUniqueMethods (ex ci : ClassInfo) : ClassInfo :=
  { ex with methods := ex.methods ++
      ci.methods.filter fun m =>
        !((ex.methods.map methodSignature).contains (methodSignature m)) }

/-- The final by-name de-duplication (fileUtils.ts lines 944–1005): keep
the version with more methods (ties broken towards a non-default
package), merging method lists when the existing entry wins. -/
def dedupClassesByName : List (String × ClassInfo) → List (String × ClassInfo) →
    List (String × ClassInfo)
  | [], final => final
  | (key, ci) :: rest, final =>
    match final.find? (fun kv => kv.2.name == ci.name) with
    | none => dedupClassesByName rest (final ++ [(key, ci)])
    | some kv =>
      if ci.methods.length > kv.2.methods.length then
        dedupClassesByName rest
          ((final.filter fun kv' => !(kv'.1 == kv.1)) ++ [(key, ci)])
      else if ci.methods.length = kv.2.methods.length then
        if ci.packageName != "default" && kv.2.packageName == "default" then
          dedupClassesByName rest
            ((final.filter fun kv' => !(kv'.1 == kv.1)) ++ [(key, ci)])
        else
          dedupClassesByName rest
            (final.map fun kv' =>
              if kv'.1 == kv.1 then (kv.1, mergeUniqueMethods kv.2 ci) else kv')
      else
        dedupClassesByName rest
          (final.map fun kv' =>
            if kv'.1 == kv.1 then (kv.1, mergeUniqueMethods kv.2 ci) else kv')

/-- The class catalog produced from the class-diagram XML. -/
def processClassDiagram (elems : List RawClassElem) : List ClassInfo :=
  (dedupClassesByName (buildClassesMap 0 elems []) []).map (fun kv => kv.2)

/-! ## No surviving class name starts with `Class` -/

theorem invalidClassName_false_startsWith {n : String}
    (h : invalidClassName n = false) : startsWithStr n "Class" = false := by
  simp only [invalidClassName, Bool.or_eq_false_iff] at h
  exact h.2

theorem buildClassesMap_names :
    ∀ (elems : List RawClassElem) (i : Nat) (acc : List (String × ClassInfo)),
      (∀ kv ∈ acc, startsWithStr kv.2.name "Class" = false) →
      ∀ kv ∈ buildClassesMap i elems acc, startsWithStr kv.2.name "Class" = false := by
  intro elems
  induction elems with
  | nil =>
    intro i acc hacc kv hkv
    rw [buildClassesMap] at hkv
    exact hacc kv hkv
  | cons e rest ih =>
    intro i acc hacc kv hkv
    rw [buildClassesMap] at hkv
    split at hkv
    · exact ih _ _ hacc kv hkv
    · rename_i hvalid
      split at hkv
      · rename_i kv1 hfind
        refine ih _ _ ?_ kv hkv
        intro kv' hkv'
        rcases List.mem_map.1 hkv' with ⟨kv0, hkv0, rfl⟩
        by_cases hk : (kv0.1 == kv1.1) = true
        · rw [if_pos hk]
          exact hacc kv1 (List.mem_of_find?_eq_some hfind)
        · rw [if_neg hk]
          exact hacc kv0 hkv0
      · split at hkv
        · refine ih _ _ ?_ kv hkv
          intro kv' hkv'
          rcases List.mem_append.1 hkv' with h | h
          · exact hacc kv' h
          · rcases List.mem_singleton.1 h with rfl
            exact invalidClassName_false_startsWith (by simpa using hvalid)
        · exact ih _ _ hacc kv hkv

theorem dedupClassesByName_names :
    ∀ (entries final : List (String × ClassInfo)),
      (∀ kv ∈ entries, startsWithStr kv.2.name "Class" = false) →
      (∀ kv ∈ final, startsWithStr kv.2.name "Class" = false) →
      ∀ kv ∈ dedupClassesByName entries final,
        startsWithStr kv.2.name "Class" = false := by
  intro entries
  induction entries with
  | nil =>
    intro final _ hfin kv hkv
    rw [dedupClassesByName] at hkv
    exact hfin kv hkv
  | cons p rest ih =>
    intro final hent hfin kv hkv
    obtain ⟨key, ci⟩ := p
    have hci : startsWithStr ci.name "Class" = false :=
      hent (key, ci) (List.mem_cons_self _ _)
    have hrest : ∀ kv ∈ rest, startsWithStr kv.2.name "Class" = false := fun kv h =>
      hent kv (List.mem_cons_of_mem _ h)
    rw [dedupClassesByName] at hkv
    split at hkv
    · refine ih _ hrest ?_ kv hkv
      intro kv' h
      rcases List.mem_append.1 h with h | h
      · exact hfin kv' h
      · rcases List.mem_singleton.1 h with rfl
        exact hci
    · rename_i kv1 hfind
      have hkv1 : startsWithStr kv1.2.name "Class" = false :=
        hfin kv1 (List.mem_of_find?_eq_some hfind)
      split at hkv
      · refine ih _ hrest ?_ kv hkv
        intro kv' h
        rcases List.mem_append.1 h with h | h
        · exact hfin kv' (List.mem_filter.1 h).1
        · rcases List.mem_singleton.1 h with rfl
          exact hci
      · split at hkv
        · split at hkv
          · refine ih _ hrest ?_ kv hkv
            intro kv' h
            rcases List.mem_append.1 h with h | h
            · exact hfin kv' (List.mem_filter.1 h).1
            · rcases List.mem_singleton.1 h with rfl
              exact hci
          · refine ih _ hrest ?_ kv hkv
            intro kv' h
            rcases List.mem_map.1 h with ⟨kv0, hkv0, rfl⟩
            by_cases hk : (kv0.1 == kv1.1) = true
            · rw [if_pos hk]
              exact hkv1
            · rw [if_neg hk]
              exact hfin kv0 hkv0
        · refine ih _ hrest ?_ kv hkv
          intro kv' h
          rcases List.mem_map.1 h with ⟨kv0, hkv0, rfl⟩
          by_cases hk : (kv0.1 == kv1.1) = true
          · rw [if_pos hk]
            exact hkv1
          · rw [if_neg hk]
            exact hfin kv0 hkv0

/-! ## The top-level traversal never exhausts its fuel -/

theorem buildCallGraphRunF_ok (ds : List SequenceDiagram) (sel : List ClassInfo) :
    ∀ (l : List SequenceDiagram), (∀ d ∈ l, d ∈ ds) → ∀ p : Graph × Bool, p.2 = true →
      (l.foldl
        (fun p d =>
          let r := processRecF ds sel (ds.length + 1) [] p.1 d
          (r.graph, p.2 && r.ok)) p).2 = true := by
  intro l
  induction l with
  | nil => intro _ p hp; exact hp
  | cons d l' ih =>
    intro hmem p hp
    have hok : (processRecF ds sel (ds.length + 1) [] p.1 d).ok = true :=
      (traversal_ok ds sel (ds.length + 1)).1 [] p.1 d (hmem d (List.mem_cons_self _ _))
        (by rw [unvisitedCount_nil]; exact Nat.lt_succ_self _)
    rw [List.foldl_cons]
    refine ih (fun e he => hmem e (List.mem_cons_of_mem _ he)) _ ?_
    show (p.2 && (processRecF ds sel (ds.length + 1) [] p.1 d).ok) = true
    rw [hp, hok]
    rfl

/-- `String` append acts as append on the underlying character lists. -/
theorem string_append_data (a b : String) : (a ++ b).data = a.data ++ b.data := rfl

/-! ## Concrete instances

Small parsed-diagram, class and CSV fixtures used to instantiate the
claims below on concrete inputs. -/

/-- A diagram whose single reference resolves to no loaded diagram. -/
def dMainBad : SequenceDiagram :=
  ⟨"d1", "Main", [], [], [⟨"r1", "ProcessPayment", some "ProcessPayment"⟩]⟩

def cTS : ClassInfo := ⟨"c1", "TransactionService", "com.bank", [], []⟩

def oTellerW : ObjectNode := ⟨"o1", "teller", "Teller"⟩

def oSvcW : ObjectNode := ⟨"o2", "svc", "TransactionService"⟩

/-- A pair of diagrams whose references all resolve internally. -/
def dResA : SequenceDiagram :=
  ⟨"d1", "A", [oTellerW, oSvcW],
    [⟨"m1", "o1", "o2", "processDeposit(amount)", "message"⟩],
    [⟨"rA", "B", some "B"⟩]⟩

def dResB : SequenceDiagram := ⟨"d2", "B", [], [], []⟩

/-- The REF participant box of `dRefMain`. -/
def oRefBox : ObjectNode := ⟨"o2", "ProcessPayment", "REF"⟩

/-- A return-shaped message (a bare camelCase noun). -/
def mBal : Message := ⟨"m1", "o1", "o2", "accountBalance", "message"⟩

/-- A diagram whose only message is return-shaped and addressed to an
unresolvable REF box. -/
def dRefMain : SequenceDiagram :=
  ⟨"d1", "Main", [oTellerW, oRefBox], [mBal],
    [⟨"r1", "ProcessPayment", some "ProcessPayment"⟩]⟩

def oAcctW : ObjectNode := ⟨"o2", "acct", "AccountService"⟩

/-- A `Teller → AccountService` deposit interaction. -/
def dTA : SequenceDiagram :=
  ⟨"d1", "Deposit", [oTellerW, oAcctW],
    [⟨"m1", "o1", "o2", "deposit(amount)", "message"⟩], []⟩

def cTeller : ClassInfo := ⟨"c1", "Teller", "com.bank", [], []⟩

def cAcctSvc : ClassInfo := ⟨"c2", "AccountService", "com.bank", [], []⟩

def mDeposit : MethodInfo :=
  ⟨"m1", "deposit", "void", "public", [⟨"amount", "double"⟩]⟩

/-- A legitimately named class whose name nevertheless starts with
`Class`. -/
def eClassRoom : RawClassElem := ⟨some "ClassRoom", "school", [mDeposit]⟩

def eAccount : RawClassElem := ⟨some "Account", "bank", [mDeposit]⟩

/-- The catalog entry produced from `eAccount`. -/
def cAccountOut : ClassInfo := ⟨"", "Account", "bank", [mDeposit], []⟩

def hdrRTM : List String := ["Requirement ID", "System Function", "Sequence Diagram"]

def rowRTM1 : List String := ["F1", "Deposit", "A, B"]

def rowRTM2 : List String := ["F1", "Deposit", "B; C"]

def rowRTM3 : List String := ["F2", "Withdraw", "D"]

/-- A header in which neither an id-like nor a name-like column resolves. -/
def hdrNoCols : List String := ["Foo", "Bar"]

/-- A header in which only the id-like column resolves. -/
def hdrIdOnly : List String := ["Req ID", "Diagram"]

def dFlow : SequenceDiagram := ⟨"dF", "Process Deposit Flow", [], [], []⟩

def dDiag : SequenceDiagram := ⟨"dD", "ProcessDeposit Diagram", [], [], []⟩

/-- A diagram collection with two partial matches for `ProcessDeposit`
and no exact one. -/
def pairsDeposit : List (String × SequenceDiagram) :=
  [("ProcessDeposit Diagram", dDiag), ("Process Deposit Flow", dFlow)]

/-! ## The claims -/

/-- Claim C1 (amended): when every reference of every loaded diagram
resolves to a loaded diagram, the call graph contains no self-edge and no
edge with an `ACTOR` or `REF` endpoint. Unrestricted, the claim fails:
see the counterexample below, where the unresolved-reference fallback
manufactures a self-edge. -/
theorem call_graph_invariant_of_resolvable (ds : List SequenceDiagram)
    (sel : List ClassInfo) (h : resolvableRefs ds = true) :
    graphOK (buildCallGraph ds sel) :=
  buildCallGraph_graphOK ds sel h

theorem call_graph_invariant_of_resolvable_witness :
    resolvableRefs [dResA, dResB] = true ∧
    graphOK (buildCallGraph [dResA, dResB] []) :=
  ⟨by decide, call_graph_invariant_of_resolvable [dResA, dResB] [] (by decide)⟩

/-- Claim C1, counterexample to the unrestricted statement: a single
diagram whose reference resolves to no loaded diagram and a selected
class whose name equals the fallback's synthetic service-class name
produce the self-edge `TransactionService → TransactionService`. -/
theorem call_graph_self_edge_on_unresolved_ref :
    ("TransactionService", "TransactionService") ∈ buildCallGraph [dMainBad] [cTS] ∧
    ¬ edgeOK ("TransactionService", "TransactionService") := by
  refine ⟨by decide, fun hok => hok.1 rfl⟩

/-- Claim C2 (amended): a message classified as a return by the Message
Classifier contributes no edge in the message-processing loop: the
per-message step leaves the graph unchanged. Unrestricted (over the full
builder), the claim fails: see the counterexample below, where the
unresolved-reference fallback re-reads the same message and adds an
edge from it. -/
theorem return_classified_message_skipped (d : SequenceDiagram) (g : Graph)
    (message : Message) (fO tO : ObjectNode)
    (h : detectReturnMessage message fO tO = true) :
    processOneMessage d g message = g :=
  processOneMessage_return_skip d g message fO tO h

theorem return_classified_message_skipped_witness :
    detectReturnMessage mBal oTellerW oRefBox = true ∧
    processOneMessage dRefMain [] mBal = [] :=
  ⟨by decide,
    return_classified_message_skipped dRefMain [] mBal oTellerW oRefBox (by decide)⟩

/-- Claim C2, counterexample to the whole-graph statement: the diagram's
only message is return-classified, yet the built call graph contains an
edge derived from that very message (through the unresolved-REF
fallback's message scan). -/
theorem return_message_edge_via_fallback :
    detectReturnMessage mBal oTellerW oRefBox = true ∧
    dRefMain.messages = [mBal] ∧
    buildCallGraph [dRefMain] [] = [("Teller", "TransactionService")] := by
  refine ⟨by decide, rfl, by decide⟩

/-- Claim C3: the visited-set-guarded traversal terminates on every
finite diagram collection, reference cycles included: at recursion-depth
budget `ds.length + 1` the embedded run never exhausts its fuel (the
`ok` marker of the run is `true`). -/
theorem traversal_fuel_sufficient (ds : List SequenceDiagram) (sel : List ClassInfo) :
    (buildCallGraphRunF ds sel (ds.length + 1)).2 = true := by
  unfold buildCallGraphRunF
  exact buildCallGraphRunF_ok ds sel ds (fun d hd => hd) (∅, true) rfl

/-- Claim C4: with resolved id and name columns and data rows that carry
a nonempty id in range, the RTM parser returns one `SystemFunction` per
distinct id (in first-appearance order) whose diagram-name list is the
de-duplicated union of the names listed across all rows sharing that
id. -/
theorem rtm_one_function_per_id (header r : List String) (rest : List (List String))
    (i j : Nat)
    (hi : findBestColumnMatch header possibleFnIdColumns = some i)
    (hj : findBestColumnMatch header possibleFnNameColumns = some j)
    (hrows : ∀ row ∈ r :: rest, i < row.length ∧ idOf i row ≠ "") :
    (processRTMRows (header :: r :: rest)).map (fun f => f.id) =
      dedupKF ((r :: rest).map (idOf i)) ∧
    ∀ f ∈ processRTMRows (header :: r :: rest),
      f.sequenceDiagramNames =
        dedupKF (((r :: rest).filter (fun row => idOf i row == f.id)).flatMap
          (rowDiagramsRaw (findBestColumnMatch header possibleSeqDiagramColumns)
            (findBestColumnMatch header possibleRelatedSeqDiagramColumns))) := by
  rw [processRTMRows_cons, effectiveIndexes_both hi hj]
  rw [if_neg (by simp)]
  have h := processRows_invariant i (some j)
      (findBestColumnMatch header possibleSeqDiagramColumns)
      (findBestColumnMatch header possibleRelatedSeqDiagramColumns)
      (r :: rest) [] [] rfl (fun f hf => absurd hf (List.not_mem_nil _)) hrows
  simpa using h

theorem rtm_one_function_per_id_witness :
    findBestColumnMatch hdrRTM possibleFnIdColumns = some 0 ∧
    findBestColumnMatch hdrRTM possibleFnNameColumns = some 1 ∧
    ((processRTMRows (hdrRTM :: rowRTM1 :: [rowRTM2, rowRTM3])).map (fun f => f.id) =
        dedupKF ((rowRTM1 :: [rowRTM2, rowRTM3]).map (idOf 0)) ∧
      ∀ f ∈ processRTMRows (hdrRTM :: rowRTM1 :: [rowRTM2, rowRTM3]),
        f.sequenceDiagramNames =
          dedupKF (((rowRTM1 :: [rowRTM2, rowRTM3]).filter
              (fun row => idOf 0 row == f.id)).flatMap
            (rowDiagramsRaw (findBestColumnMatch hdrRTM possibleSeqDiagramColumns)
              (findBestColumnMatch hdrRTM possibleRelatedSeqDiagramColumns)))) :=
  ⟨by decide, by decide,
    rtm_one_function_per_id hdrRTM rowRTM1 [rowRTM2, rowRTM3] 0 1
      (by decide) (by decide) (by decide)⟩

/-- Claim C5: a generation run whose selection yields zero stub targets
and zero driver targets emits exactly the single `TestAnalysisSummary.txt`
artifact and no Java stub or driver file. -/
theorem self_contained_selection_summary (g : Graph) (sel : List ClassInfo)
    (h1 : neededStubs g sel = []) (h2 : neededDrivers g sel = []) :
    generateArtifacts g sel =
      [(⟨"TestAnalysisSummary.txt", "driver", "Analysis"⟩ : GeneratedArtifact)] := by
  simp only [generateArtifacts, h1, h2]
  rfl

theorem self_contained_selection_summary_witness :
    neededStubs (buildCallGraph [dTA] [cTeller, cAcctSvc]) [cTeller, cAcctSvc] = [] ∧
    neededDrivers (buildCallGraph [dTA] [cTeller, cAcctSvc]) [cTeller, cAcctSvc] = [] ∧
    generateArtifacts (buildCallGraph [dTA] [cTeller, cAcctSvc]) [cTeller, cAcctSvc] =
      [(⟨"TestAnalysisSummary.txt", "driver", "Analysis"⟩ : GeneratedArtifact)] :=
  ⟨by decide, by decide,
    self_contained_selection_summary _ _ (by decide) (by decide)⟩

/-- Claim C6: when neither an id-like nor a name-like column resolves
from the RTM header, parsing returns the empty function list; when
exactly one of the two resolves, the resolved column serves for both the
id and the name, so every produced function has equal id and name. -/
theorem rtm_column_resolution (header : List String) (dataRows : List (List String)) :
    (findBestColumnMatch header possibleFnIdColumns = none →
      findBestColumnMatch header possibleFnNameColumns = none →
      processRTMRows (header :: dataRows) = []) ∧
    (∀ i, findBestColumnMatch header possibleFnIdColumns = some i →
      findBestColumnMatch header possibleFnNameColumns = none →
      ∀ f ∈ processRTMRows (header :: dataRows), f.id = f.name) ∧
    (∀ j, findBestColumnMatch header possibleFnIdColumns = none →
      findBestColumnMatch header possibleFnNameColumns = some j →
      ∀ f ∈ processRTMRows (header :: dataRows), f.id = f.name) := by
  refine ⟨?_, ?_, ?_⟩
  · intro h1 h2
    cases dataRows with
    | nil => exact processRTMRows_single header
    | cons rr rest =>
      rw [processRTMRows_cons, effectiveIndexes_none h1 h2]
      rw [if_pos ⟨rfl, rfl⟩]
  · intro i h1 h2 f hf
    cases dataRows with
    | nil => rw [processRTMRows_single] at hf; cases hf
    | cons rr rest =>
      rw [processRTMRows_cons, effectiveIndexes_id_only h1 h2] at hf
      rw [if_neg (by simp)] at hf
      exact processRows_id_eq_name (some i) _ _ (rr :: rest) []
        (fun f hf => absurd hf (List.not_mem_nil _)) f hf
  · intro j h1 h2 f hf
    cases dataRows with
    | nil => rw [processRTMRows_single] at hf; cases hf
    | cons rr rest =>
      rw [processRTMRows_cons, effectiveIndexes_name_only h1 h2] at hf
      rw [if_neg (by simp)] at hf
      exact processRows_id_eq_name (some j) _ _ (rr :: rest) []
        (fun f hf => absurd hf (List.not_mem_nil _)) f hf

theorem rtm_column_resolution_witness :
    processRTMRows [hdrNoCols, ["x", "y"]] = [] ∧
    ∀ f ∈ processRTMRows [hdrIdOnly, ["F1", "A, B"]], f.id = f.name :=
  ⟨(rtm_column_resolution hdrNoCols [["x", "y"]]).1 (by decide) (by decide),
    (rtm_column_resolution hdrIdOnly [["F1", "A, B"]]).2.1 0 (by decide) (by decide)⟩

/-- Claim C7 (amended): in a collection holding only the diagram named
`Process Deposit Flow` (so no exact `ProcessDeposit`), the fuzzy Matcher
resolves the REF label `ProcessDeposit` to that diagram. Unrestricted
over collections, the claim fails: see the counterexample below. -/
theorem matcher_resolves_processdeposit_variant :
    findMatchingDiagram "ProcessDeposit" [("Process Deposit Flow", dFlow)] =
      Except.ok (some dFlow) := rfl

/-- Claim C7, counterexample to the collection-independent statement:
with another partial match present (and still no diagram named exactly
`ProcessDeposit`), the Matcher returns `ProcessDeposit Diagram` rather
than the claimed `Process Deposit Flow`. -/
theorem matcher_prefers_other_partial_match :
    (∀ p ∈ pairsDeposit, p.2.name ≠ "ProcessDeposit") ∧
    ("Process Deposit Flow", dFlow) ∈ pairsDeposit ∧
    findMatchingDiagram "ProcessDeposit" pairsDeposit = Except.ok (some dDiag) ∧
    dDiag.name ≠ "Process Deposit Flow" := by
  refine ⟨by decide, by decide, rfl, by decide⟩

/-- Claim C8 (amended): when the literal `.xml` occurs nowhere before the
final extension, the produced diagram name is the file name with that
extension stripped. Unrestricted, the claim fails: see the
upper-case-extension counterexample below. -/
theorem seq_diagram_name_strips_final_xml (stem : String)
    (h : xmlOnlyAtEnd stem = true) :
    seqDiagramNameOfFile (stem ++ ".xml") = stem := by
  have h' : ∀ idx < stem.data.length,
      isPrefixL ".xml".data ((stem.data ++ ".xml".data).drop idx) = false := by
    intro idx hidx
    have hall := List.all_eq_true.1 h idx (List.mem_range.2 hidx)
    simpa using hall
  show (⟨replaceFirstXml (stem ++ ".xml").data⟩ : String) = stem
  rw [string_append_data, replaceFirstXml_append stem.data h']

theorem seq_diagram_name_strips_final_xml_witness :
    xmlOnlyAtEnd "DepositSequence" = true ∧
    seqDiagramNameOfFile ("DepositSequence" ++ ".xml") = "DepositSequence" :=
  ⟨by decide, seq_diagram_name_strips_final_xml "DepositSequence" (by decide)⟩

/-- Claim C8, counterexample to the unrestricted statement: the file name
`Foo.XML` passes upload validation (the extension check lower-cases), but
the case-sensitive `.xml` removal leaves the name untouched, so the
diagram name keeps its extension instead of stripping it. -/
theorem seq_diagram_name_keeps_uppercase_extension :
    validateFileExtension "Foo.XML" FileType.sequenceDiagram = true ∧
    seqDiagramNameOfFile "Foo.XML" = "Foo.XML" ∧
    stripExtensionSpec "Foo.XML" = "Foo" ∧
    seqDiagramNameOfFile "Foo.XML" ≠ stripExtensionSpec "Foo.XML" := by
  refine ⟨by decide, rfl, rfl, by decide⟩

/-- Claim C9: a REF occurrence whose label is exactly the prefix token
`ref` makes the candidate-variant generator read the head of the empty
prefix-stripped base and throw, and the parser's catch-all then rejects
the whole file (`none`) instead of degrading to an unresolved
reference. -/
theorem ref_only_label_rejects_file :
    enhanceRefNameMatching "ref" = Except.error () ∧
    processSequenceDiagramRefs [(⟨"ref", none⟩ : OccurrenceModel)] = none :=
  ⟨rfl, rfl⟩

/-- Claim C10: every class element whose effective name starts with
`Class` — the placeholder as well as legitimate names such as
`ClassRoom` — is discarded by the class-diagram parser: no class in the
resulting catalog has a name starting with `Class`. -/
theorem class_prefix_names_discarded (elems : List RawClassElem) (c : ClassInfo)
    (h : c ∈ processClassDiagram elems) : startsWithStr c.name "Class" = false := by
  unfold processClassDiagram at h
  rcases List.mem_map.1 h with ⟨kv, hkv, rfl⟩
  exact dedupClassesByName_names (buildClassesMap 0 elems []) []
    (buildClassesMap_names elems 0 [] (fun kv h => absurd h (List.not_mem_nil _)))
    (fun kv h => absurd h (List.not_mem_nil _)) kv hkv

theorem class_prefix_names_discarded_witness :
    cAccountOut ∈ processClassDiagram [eClassRoom, eAccount] ∧
    startsWithStr cAccountOut.name "Class" = false :=
  ⟨by decide, class_prefix_names_discarded [eClassRoom, eAccount] cAccountOut (by decide)⟩

end StubDriver
